import Mathlib

/-!
# Block allocator (`main.c`): shallow embedding and verification

The C program keeps a singly linked registry of `MemoryBlock` records, each
owning a backing buffer obtained from `malloc`.  The embedding below makes the
C heap explicit:

* a pointer is an `Option Nat` (`none` is `NULL`);
* the heap maps an address to the object `malloc` handed out there (a block
  record or a byte buffer) and is `none` at addresses that are not outstanding;
* every call of `malloc` and every effective call of `free` is appended to a
  log, so that "requests nothing" and "releases nothing" can be stated;
* an operation returns `none` when the C program would have undefined
  behaviour (dereferencing or releasing an address that is not outstanding,
  copying outside a buffer) or, for the two loops, when the fuel runs out.

`size_t` values are natural numbers: the program only stores and compares
them, so no wrap-around can occur.
-/

namespace Alloc

/-! ## Data model -/

/-- The C `struct MemoryBlock` (lines 9-15). -/
structure MemoryBlock where
  szSize : Nat
  isInited : Bool
  isUsed : Bool
  pAddr : Option Nat
  pNext : Option Nat
  deriving DecidableEq

/-- The C `struct Allocator` (lines 17-20). -/
structure Allocator where
  isInited : Bool
  pHead : Option Nat
  deriving DecidableEq

/-- An object living at a heap address: a block record or a backing buffer. -/
inductive Obj where
  | block (b : MemoryBlock)
  | bytes (d : List Nat)
  deriving DecidableEq

/-- Calls made to the system allocator. -/
inductive Event where
  | mallocMem (size : Nat) (result : Option Nat)
  | mallocBlock (result : Option Nat)
  | free (p : Nat)
  deriving DecidableEq

/-- The heap: outstanding objects by address, and the log of system calls. -/
structure Heap where
  mem : Nat → Option Obj
  log : List Event

/-- Answers of the system allocator during one `Allocator_AllocateBlock`:
the two `malloc` results, and the indeterminate contents of fresh memory. -/
structure Sys where
  memAns : Option Nat
  blockAns : Option Nat
  junk : Nat → Nat
  junkBlock : MemoryBlock

def SUCCESS : Nat := 1
def ALREADY_INITED : Nat := 2
def INITIALIZATION_FAILURE : Nat := 3
def ALREADY_ALLOCATED : Nat := 4
def ALLOCATION_FAILURE : Nat := 5

/-! ## Heap primitives -/

/-- The heap with nothing outstanding. -/
def Heap.empty : Heap := { mem := fun _ => none, log := [] }

/-- Replace the object stored at `p`. -/
def Heap.store (h : Heap) (p : Nat) (o : Option Obj) : Heap :=
  { h with mem := fun x => if x = p then o else h.mem x }

/-- Read the block record at `p`; `none` if `p` is not an outstanding record. -/
def Heap.block (h : Heap) (p : Nat) : Option MemoryBlock :=
  match h.mem p with
  | some (Obj.block b) => some b
  | _ => none

/-- Read the buffer at `p`; `none` if `p` is not an outstanding buffer. -/
def Heap.buf (h : Heap) (p : Nat) : Option (List Nat) :=
  match h.mem p with
  | some (Obj.bytes d) => some d
  | _ => none

/-- Assign through a `MemoryBlock*`: `p->field = ...`. -/
def Heap.setBlock (h : Heap) (p : Nat) (f : MemoryBlock → MemoryBlock) : Option Heap :=
  match h.block p with
  | some b => some (h.store p (some (Obj.block (f b))))
  | none => none

/-- C `malloc`: the answer `r` of the system is logged; a successful answer
must be an address that is not outstanding, and the object `o` appears there. -/
def Heap.malloc (h : Heap) (ev : Event) (r : Option Nat) (o : Obj) : Option Heap :=
  match r with
  | none => some { h with log := h.log ++ [ev] }
  | some p =>
    match h.mem p with
    | none => some { mem := fun x => if x = p then some o else h.mem x, log := h.log ++ [ev] }
    | some _ => none

/-- C `free`: `free(NULL)` does nothing; releasing an address that is not
outstanding is undefined. -/
def Heap.free (h : Heap) (q : Option Nat) : Option Heap :=
  match q with
  | none => some h
  | some p =>
    match h.mem p with
    | none => none
    | some _ =>
      some { mem := fun x => if x = p then none else h.mem x, log := h.log ++ [Event.free p] }

/-- C `memcpy(dst, src, n)` into a heap buffer: the first `n` bytes of the
destination are replaced by the first `n` bytes of the source. -/
def memcpy (h : Heap) (dst : Option Nat) (src : List Nat) (n : Nat) : Option Heap :=
  match dst with
  | none => none
  | some a =>
    match h.buf a with
    | none => none
    | some d =>
      if n ≤ d.length ∧ n ≤ src.length then
        some (h.store a (some (Obj.bytes (src.take n ++ d.drop n))))
      else none

/-! ## The operations of `main.c` -/

/-- `Allocator_Init` (lines 37-42). -/
def Allocator_Init (self : Allocator) : Nat × Allocator :=
  if self.isInited = true then (ALREADY_INITED, self)
  else (SUCCESS, { isInited := true, pHead := none })

/-- `Allocator_InitBlock` (lines 44-50): five field assignments. -/
def Allocator_InitBlock (h : Heap) (pMemBlock : Nat) (szBlockSize : Nat) (isBlockUsed : Bool)
    (pBlockAddr : Option Nat) (pNextMemBlock : Option Nat) : Option Heap := do
  let h ← h.setBlock pMemBlock (fun b => { b with szSize := szBlockSize })
  let h ← h.setBlock pMemBlock (fun b => { b with isUsed := isBlockUsed })
  let h ← h.setBlock pMemBlock (fun b => { b with pAddr := pBlockAddr })
  let h ← h.setBlock pMemBlock (fun b => { b with pNext := pNextMemBlock })
  h.setBlock pMemBlock (fun b => { b with isInited := true })

/-- `Allocator_AllocateBlock` (lines 52-61).  `slot` is the value of
`*pMemBlock` on entry; the result carries the return code, the heap, the
allocator and the value of `*pMemBlock` on exit. -/
def Allocator_AllocateBlock (sys : Sys) (h : Heap) (self : Allocator) (slot : Option Nat)
    (szSize : Nat) : Option (Nat × Heap × Allocator × Option Nat) :=
  if slot ≠ none then some (ALREADY_ALLOCATED, h, self, slot)
  else do
    let pPointer := sys.memAns
    let h ← h.malloc (Event.mallocMem szSize pPointer) pPointer
      (Obj.bytes ((List.range szSize).map sys.junk))
    if pPointer = none then some (ALLOCATION_FAILURE, h, self, slot)
    else do
      let h ← h.malloc (Event.mallocBlock sys.blockAns) sys.blockAns (Obj.block sys.junkBlock)
      match sys.blockAns with
      | none => some (INITIALIZATION_FAILURE, h, self, none)
      | some q => do
        let h ← Allocator_InitBlock h q szSize true pPointer self.pHead
        some (SUCCESS, h, { self with pHead := some q }, some q)

/-- `Allocator_FreeBlock` (lines 63-69). -/
def Allocator_FreeBlock (h : Heap) (pMemBlock : Option Nat) : Option Heap :=
  match pMemBlock with
  | none => some h
  | some p =>
    match h.block p with
    | none => none
    | some b =>
      if b.isUsed then do
        let h ← h.free b.pAddr
        let h ← h.setBlock p (fun b => { b with pAddr := none })
        h.setBlock p (fun b => { b with isUsed := false })
      else some h

/-- The `while` loop of `Allocator_Collect` (lines 75-89), started with the
cursors `pCurrent` and `pPrev`. -/
def Allocator_Collect.loop : Nat → Heap → Allocator → Option Nat → Option Nat →
    Option (Heap × Allocator)
  | 0, _, _, _, _ => none
  | _ + 1, h, self, none, _ => some (h, self)
  | fuel + 1, h, self, some c, pPrev =>
    match h.block c with
    | none => none
    | some cur =>
      if !cur.isUsed then
        let relinked : Option (Heap × Allocator) :=
          match pPrev with
          | some p => (h.setBlock p (fun b => { b with pNext := cur.pNext })).map (fun h1 => (h1, self))
          | none => some (h, { self with pHead := cur.pNext })
        match relinked with
        | none => none
        | some (h1, self1) =>
          match Allocator_FreeBlock h1 (some c) with
          | none => none
          | some h2 =>
            match h2.free (some c) with
            | none => none
            | some h3 =>
              match pPrev with
              | some p =>
                match h3.block p with
                | none => none
                | some prev => Allocator_Collect.loop fuel h3 self1 prev.pNext pPrev
              | none => Allocator_Collect.loop fuel h3 self1 self1.pHead pPrev
      else Allocator_Collect.loop fuel h self cur.pNext (some c)

/-- `Allocator_Collect` (lines 71-90). -/
def Allocator_Collect (fuel : Nat) (h : Heap) (self : Allocator) : Option (Heap × Allocator) :=
  Allocator_Collect.loop fuel h self self.pHead none

/-- The `while` loop of `Allocator_Destroy` (lines 94-99). -/
def Allocator_Destroy.loop : Nat → Heap → Option Nat → Option Heap
  | 0, _, _ => none
  | _ + 1, h, none => some h
  | fuel + 1, h, some c =>
    match h.block c with
    | none => none
    | some cur =>
      match Allocator_FreeBlock h (some c) with
      | none => none
      | some h1 =>
        match h1.free (some c) with
        | none => none
        | some h2 => Allocator_Destroy.loop fuel h2 cur.pNext

/-- `Allocator_Destroy` (lines 92-101).  The allocator record itself is passed by
value in this embedding, so the final `free(pSelf)` consumes `self`. -/
def Allocator_Destroy (fuel : Nat) (h : Heap) (self : Allocator) : Option Heap :=
  Allocator_Destroy.loop fuel h self.pHead

/-- `Allocator_WriteToBlock` (lines 103-106).  `pMemBlock` is dereferenced
unconditionally, so it is taken as an address; `pData` is the readable source
region. -/
def Allocator_WriteToBlock (h : Heap) (pMemBlock : Nat) (pData : List Nat) (szSize : Nat) :
    Option Heap :=
  match h.block pMemBlock with
  | none => none
  | some b =>
    if !b.isUsed || decide (szSize > b.szSize) then some h
    else memcpy h b.pAddr pData szSize

/-- `Allocator_ReadFromBlock` (lines 108-111): the returned `void*`. -/
def Allocator_ReadFromBlock (h : Heap) (pMemBlock : Nat) : Option (Option Nat) :=
  match h.block pMemBlock with
  | none => none
  | some b => if !b.isUsed then some none else some b.pAddr

/-! ## The registry as a list of addresses -/

/-- `IsChain h p l`: following `pNext` from `p` visits exactly the records at
the addresses `l` and then reaches `NULL`. -/
def IsChain (h : Heap) : Option Nat → List Nat → Prop
  | p, [] => p = none
  | p, a :: l => p = some a ∧ ∃ b, h.block a = some b ∧ IsChain h b.pNext l

/-- Whether the record at `a` has `isUsed == true`. -/
def live (h : Heap) (a : Nat) : Bool :=
  match h.block a with
  | some b => b.isUsed
  | none => false

/-- What a sweep over the chain `l` did between the heaps `h` and `h'`: a record
that was live keeps every field except possibly `pNext`, a record that was
dead is no longer outstanding, and the log grew by one `free` per dead record. -/
structure Swept (h h' : Heap) (l : List Nat) : Prop where
  kept : ∀ a ∈ l, live h a = true →
    ∃ b nx, h.block a = some b ∧ h'.block a = some { b with pNext := nx }
  gone : ∀ a ∈ l, live h a = false → h'.mem a = none
  log : h'.log = h.log ++ (l.filter (fun a => !live h a)).map Event.free

/-! ## Concrete scenarios taken from the test routines of `main.c` -/

/-- System answers for the first allocation of `Test_Allocator_Collect`. -/
def sysP4a : Sys :=
  { memAns := some 10, blockAns := some 1, junk := (fun _ => 0),
    junkBlock := ⟨0, false, false, none, none⟩ }

/-- System answers for the second allocation of `Test_Allocator_Collect`. -/
def sysP4b : Sys :=
  { memAns := some 20, blockAns := some 2, junk := (fun _ => 0),
    junkBlock := ⟨0, false, false, none, none⟩ }

/-- Lines 139-146 of `Test_Allocator_Collect`: two allocations (1024 and 2048
bytes), then `block1->isUsed = false`. -/
def p4Run : Option (Heap × Allocator) := do
  let (_, h, self, _) ← Allocator_AllocateBlock sysP4a Heap.empty ⟨true, none⟩ none 1024
  let (_, h, self, _) ← Allocator_AllocateBlock sysP4b h self none 2048
  let h ← h.setBlock 1 (fun b => { b with isUsed := false })
  some (h, self)

/-- The heap reached by `p4Run`, written out: `block1` at address 1 (dead, still
holding buffer 10), `block2` at address 2 (live, buffer 20, linked to 1). -/
def p4Heap : Heap :=
  { mem := fun x =>
      if x = 1 then some (Obj.block ⟨1024, true, false, some 10, none⟩)
      else if x = 2 then some (Obj.block ⟨2048, true, true, some 20, some 1⟩)
      else if x = 10 then some (Obj.bytes ((List.range 1024).map (fun _ => 0)))
      else if x = 20 then some (Obj.bytes ((List.range 2048).map (fun _ => 0)))
      else none,
    log := [Event.mallocMem 1024 (some 10), Event.mallocBlock (some 1),
      Event.mallocMem 2048 (some 20), Event.mallocBlock (some 2)] }

/-- The heap of `Test_Allocator_WriteReadBlock` after its allocation (line 163):
one live 1024-byte block at address 1 with its buffer at address 10. -/
def wrHeap : Heap :=
  { mem := fun x =>
      if x = 1 then some (Obj.block ⟨1024, true, true, some 10, none⟩)
      else if x = 10 then some (Obj.bytes ((List.range 1024).map (fun _ => 0)))
      else none,
    log := [Event.mallocMem 1024 (some 10), Event.mallocBlock (some 1)] }

/-- The 18 bytes of `"Hello, Allocator!"` with its terminator (line 165). -/
def helloBytes : List Nat :=
  [72, 101, 108, 108, 111, 44, 32, 65, 108, 108, 111, 99, 97, 116, 111, 114, 33, 0]

/-- The 18 bytes of `"New data written!"` with its terminator (line 175). -/
def newBytes : List Nat :=
  [78, 101, 119, 32, 100, 97, 116, 97, 32, 119, 114, 105, 116, 116, 101, 110, 33, 0]

/-! ## Invariants of the data model -/

/-- The block invariant: `pAddr` is present (non-`NULL`) iff `isUsed` is true. -/
def BlockInv (b : MemoryBlock) : Prop :=
  b.pAddr.isSome = b.isUsed

/-- The registry from `p` is the chain `l`, and every record in it satisfies the
block invariant. -/
def RegistryInv (h : Heap) (p : Option Nat) (l : List Nat) : Prop :=
  IsChain h p l ∧ ∀ a ∈ l, ∀ b, h.block a = some b → BlockInv b

/-- The heap of scenario P4 when `block1` is freed through `Allocator_FreeBlock`
instead of the direct assignment: `block1` (address 1) is dead with `pAddr`
cleared and its buffer released, `block2` (address 2) is live with buffer 20. -/
def apiHeap : Heap :=
  { mem := fun x =>
      if x = 1 then some (Obj.block ⟨1024, true, false, none, none⟩)
      else if x = 2 then some (Obj.block ⟨2048, true, true, some 20, some 1⟩)
      else if x = 20 then some (Obj.bytes ((List.range 2048).map (fun _ => 0)))
      else none,
    log := [Event.mallocMem 1024 (some 10), Event.mallocBlock (some 1),
      Event.mallocMem 2048 (some 20), Event.mallocBlock (some 2), Event.free 10] }

/-- A registry of six records `[6, 5, 4, 3, 2, 1]` in which the head (6), two
adjacent records (4, 3) and the tail (1) are dead, and 5 and 2 are live with
four-byte buffers at 15 and 12. -/
def sweepHeap : Heap :=
  { mem := fun x =>
      if x = 6 then some (Obj.block ⟨4, true, false, none, some 5⟩)
      else if x = 5 then some (Obj.block ⟨4, true, true, some 15, some 4⟩)
      else if x = 4 then some (Obj.block ⟨4, true, false, none, some 3⟩)
      else if x = 3 then some (Obj.block ⟨4, true, false, none, some 2⟩)
      else if x = 2 then some (Obj.block ⟨4, true, true, some 12, some 1⟩)
      else if x = 1 then some (Obj.block ⟨4, true, false, none, none⟩)
      else if x = 15 then some (Obj.bytes [5, 5, 5, 5])
      else if x = 12 then some (Obj.bytes [2, 2, 2, 2])
      else none,
    log := [] }

/-- The heap `wrHeap` after the first write of scenario P5: the buffer starts with
the 18 bytes of `helloBytes`. -/
def helloHeap : Heap :=
  wrHeap.store 10 (some (Obj.bytes (helloBytes ++ ((List.range 1024).map (fun _ => 0)).drop 18)))

/-- The heap of `Test_Allocator_Collect` after its two allocations (line 144), before
any block is marked dead: `block1` at address 1 and `block2` at address 2 are
both live. -/
def liveHeap : Heap :=
  { mem := fun x =>
      if x = 1 then some (Obj.block ⟨1024, true, true, some 10, none⟩)
      else if x = 2 then some (Obj.block ⟨2048, true, true, some 20, some 1⟩)
      else if x = 10 then some (Obj.bytes ((List.range 1024).map (fun _ => 0)))
      else if x = 20 then some (Obj.bytes ((List.range 2048).map (fun _ => 0)))
      else none,
    log := [Event.mallocMem 1024 (some 10), Event.mallocBlock (some 1),
      Event.mallocMem 2048 (some 20), Event.mallocBlock (some 2)] }

/-- The block `pb` is in the registry of `self` with `isUsed == true`, and reading it
returns the region `a`, whose contents are `d`. -/
def Intact (h : Heap) (self : Allocator) (pb a : Nat) (d : List Nat) : Prop :=
  (∃ l, IsChain h self.pHead l ∧ pb ∈ l) ∧ live h pb = true ∧
    Allocator_ReadFromBlock h pb = some (some a) ∧ h.buf a = some d

/-! ## Instrumented memory tracking -/

/-- Every live record of the registry `l` has an outstanding backing buffer, and no
two live records share one. -/
structure OwnsBuffers (h : Heap) (l : List Nat) : Prop where
  backed : ∀ x ∈ l, ∀ b, h.block x = some b → b.isUsed = true →
    ∃ a d, b.pAddr = some a ∧ h.buf a = some d
  exclusive : ∀ x ∈ l, ∀ y ∈ l, ∀ bx bz a, h.block x = some bx → h.block y = some bz →
    bx.isUsed = true → bz.isUsed = true → bx.pAddr = some a → bz.pAddr = some a → x = y

/-- The address `x` is a record of the registry `l` or the backing buffer of a live
record of `l`. -/
def OwnedBy (h : Heap) (l : List Nat) (x : Nat) : Prop :=
  x ∈ l ∨ ∃ y ∈ l, ∃ b, h.block y = some b ∧ b.isUsed = true ∧ b.pAddr = some x

/-- The allocator state under memory tracking: `owned` lists the addresses (block
records and backing buffers) handed out to successful `Allocator_AllocateBlock`
calls and not released since. -/
structure Tracked where
  heap : Heap
  self : Allocator
  owned : List Nat

/-- The calls of a test sequence. -/
inductive Op where
  | alloc (sys : Sys) (slot : Option Nat) (szSize : Nat)
  | free (p : Nat)
  | collect (fuel : Nat)

/-- The tracked addresses that are still outstanding in `h`. -/
def stillOwned (h : Heap) (owned : List Nat) : List Nat :=
  owned.filter (fun x => (h.mem x).isSome)

/-- One call under tracking.  A successful allocation adds the new record and its
buffer to `owned`; the releasing calls drop from `owned` what is no longer
outstanding. -/
def Tracked.step (t : Tracked) : Op → Option Tracked
  | Op.alloc sys slot szSize =>
    match Allocator_AllocateBlock sys t.heap t.self slot szSize with
    | none => none
    | some (code, h', self', slot') =>
      some ⟨h', self',
        if code = SUCCESS then slot'.toList ++ sys.memAns.toList ++ t.owned else t.owned⟩
  | Op.free p =>
    match Allocator_FreeBlock t.heap (some p) with
    | none => none
    | some h' => some ⟨h', t.self, stillOwned h' t.owned⟩
  | Op.collect fuel =>
    match Allocator_Collect fuel t.heap t.self with
    | none => none
    | some (h', self') => some ⟨h', self', stillOwned h' t.owned⟩

/-- The states reached from `t0` by sequences of `Allocator_AllocateBlock`,
`Allocator_FreeBlock` on handles that are in the registry, and
`Allocator_Collect` (run with fuel for the whole registry). -/
inductive Reach (t0 : Tracked) : Tracked → Prop where
  | start : Reach t0 t0
  | alloc {t t' : Tracked} (sys : Sys) (slot : Option Nat) (szSize : Nat) :
      Reach t0 t → t.step (Op.alloc sys slot szSize) = some t' → Reach t0 t'
  | free {t t' : Tracked} (p : Nat) (l : List Nat) :
      Reach t0 t → IsChain t.heap t.self.pHead l → p ∈ l →
      t.step (Op.free p) = some t' → Reach t0 t'
  | collect {t t' : Tracked} (fuel : Nat) (l : List Nat) :
      Reach t0 t → IsChain t.heap t.self.pHead l → l.length < fuel →
      t.step (Op.collect fuel) = some t' → Reach t0 t'

/-- The tracking invariant: the registry is the chain `l`, its live records own
their buffers, and `owned` is exactly the registry records and their buffers. -/
structure TrackedInv (t : Tracked) (l : List Nat) : Prop where
  chain : IsChain t.heap t.self.pHead l
  owns : OwnsBuffers t.heap l
  owned_iff : ∀ x, x ∈ t.owned ↔ OwnedBy t.heap l x

/-- The heap `wrHeap` after `Allocator_FreeBlock(block)`, as in lines 128-134 of
`Test_Allocator_AllocateBlock`: the record at address 1 is dead and its buffer
is released. -/
def wrFreedHeap : Heap :=
  { mem := fun x =>
      if x = 1 then some (Obj.block ⟨1024, true, false, none, none⟩)
      else if x = 10 then none else wrHeap.mem x,
    log := wrHeap.log ++ [Event.free 10] }

/-! ## Heap lemmas -/

theorem block_of_mem_eq {h h' : Heap} {x : Nat} (e : h'.mem x = h.mem x) :
    h'.block x = h.block x := by
  simp [Heap.block, e]

theorem live_of_mem_eq {h h' : Heap} {x : Nat} (e : h'.mem x = h.mem x) :
    live h' x = live h x := by
  simp [live, block_of_mem_eq e]

theorem mem_of_block {h : Heap} {p : Nat} {b : MemoryBlock} (e : h.block p = some b) :
    h.mem p = some (Obj.block b) := by
  unfold Heap.block at e
  split at e
  · next b' hb => simp at e; rw [hb, e]
  · simp at e

theorem block_store_same (h : Heap) (p : Nat) (b : MemoryBlock) :
    (h.store p (some (Obj.block b))).block p = some b := by
  simp [Heap.block, Heap.store]

theorem mem_store_ne (h : Heap) {p x : Nat} (o : Option Obj) (ne : x ≠ p) :
    (h.store p o).mem x = h.mem x := by
  simp [Heap.store, ne]

theorem setBlock_eq {h : Heap} {p : Nat} {b : MemoryBlock} (e : h.block p = some b)
    (f : MemoryBlock → MemoryBlock) :
    h.setBlock p f = some (h.store p (some (Obj.block (f b)))) := by
  simp [Heap.setBlock, e]

theorem free_eq {h : Heap} {p : Nat} {o : Obj} (e : h.mem p = some o) :
    h.free (some p) =
      some { mem := fun x => if x = p then none else h.mem x, log := h.log ++ [Event.free p] } := by
  simp [Heap.free, e]

/-! ## Chain lemmas -/

theorem IsChain.congr {h h' : Heap} : ∀ {l : List Nat} {p : Option Nat},
    (∀ x ∈ l, h'.mem x = h.mem x) → IsChain h p l → IsChain h' p l
  | [], _, _, hc => hc
  | a :: l, _, hm, ⟨hp, b, hb, hl⟩ =>
    ⟨hp, b, by rw [block_of_mem_eq (hm a (List.mem_cons_self a l))]; exact hb,
      IsChain.congr (fun x hx => hm x (List.mem_cons_of_mem a hx)) hl⟩

theorem IsChain.unique {h : Heap} : ∀ {l₁ l₂ : List Nat} {p : Option Nat},
    IsChain h p l₁ → IsChain h p l₂ → l₁ = l₂
  | [], [], _, _, _ => rfl
  | [], _ :: _, _, h₁, ⟨h₂, _⟩ => by simp [IsChain] at h₁; simp [h₁] at h₂
  | _ :: _, [], _, ⟨h₁, _⟩, h₂ => by simp [IsChain] at h₂; simp [h₂] at h₁
  | a₁ :: l₁, a₂ :: l₂, _, ⟨h₁, b₁, hb₁, hl₁⟩, ⟨h₂, b₂, hb₂, hl₂⟩ => by
    have ha : a₁ = a₂ := by rw [h₁] at h₂; exact Option.some.inj h₂
    subst ha
    have hb : b₁ = b₂ := by rw [hb₁] at hb₂; exact Option.some.inj hb₂
    subst hb
    rw [IsChain.unique hl₁ hl₂]

theorem IsChain.tail_of_mem {h : Heap} : ∀ {l : List Nat} {p : Option Nat} {a : Nat},
    IsChain h p l → a ∈ l → ∃ t, IsChain h (some a) (a :: t) ∧ t.length < l.length
  | [], _, _, _, ha => by simp at ha
  | x :: l, p, a, hc, ha => by
    by_cases hx : a = x
    · subst hx
      obtain ⟨_, b, hb, hl⟩ := hc
      exact ⟨l, ⟨rfl, b, hb, hl⟩, by simp⟩
    · have ha' : a ∈ l := by
        rcases List.mem_cons.mp ha with e | e
        · exact absurd e hx
        · exact e
      obtain ⟨_, b, _, hl⟩ := hc
      obtain ⟨t, ht, hlen⟩ := IsChain.tail_of_mem hl ha'
      exact ⟨t, ht, by simp; omega⟩

theorem IsChain.head_not_mem {h : Heap} {l : List Nat} {a : Nat} {p : Option Nat}
    (hc : IsChain h p (a :: l)) : a ∉ l := by
  intro ha
  obtain ⟨hp, b, hb, hl⟩ := hc
  obtain ⟨t, ht, hlen⟩ := IsChain.tail_of_mem hl ha
  have := IsChain.unique ht (show IsChain h (some a) (a :: l) from ⟨rfl, b, hb, hl⟩)
  simp at this
  subst this
  omega

theorem IsChain.nodup {h : Heap} : ∀ {l : List Nat} {p : Option Nat},
    IsChain h p l → l.Nodup
  | [], _, _ => List.nodup_nil
  | _ :: _, _, hc =>
    List.nodup_cons.mpr ⟨hc.head_not_mem, IsChain.nodup hc.2.choose_spec.2⟩

/-! ## The sweep loop -/

theorem freeBlock_dead {h : Heap} {p : Nat} {b : MemoryBlock} (e : h.block p = some b)
    (d : b.isUsed = false) : Allocator_FreeBlock h (some p) = some h := by
  simp [Allocator_FreeBlock, e, d]

theorem filter_live_congr {h h' : Heap} {l : List Nat} (hm : ∀ x ∈ l, h'.mem x = h.mem x) :
    l.filter (live h') = l.filter (live h) :=
  List.filter_congr (fun x hx => live_of_mem_eq (hm x hx))

theorem filter_dead_congr {h h' : Heap} {l : List Nat} (hm : ∀ x ∈ l, h'.mem x = h.mem x) :
    l.filter (fun a => !live h' a) = l.filter (fun a => !live h a) :=
  List.filter_congr (fun x hx => by simp [live_of_mem_eq (hm x hx)])

theorem collect_loop_prev : ∀ (l : List Nat) (h : Heap) (self : Allocator) (p : Nat)
    (bp : MemoryBlock) (c : Option Nat) (fuel : Nat),
    h.block p = some bp → bp.pNext = c → p ∉ l → IsChain h c l → l.length < fuel →
    ∃ h' nx, Allocator_Collect.loop fuel h self c (some p) = some (h', self) ∧
      h'.block p = some { bp with pNext := nx } ∧ IsChain h' nx (l.filter (live h)) ∧
      (∀ x, x ∉ l → x ≠ p → h'.mem x = h.mem x) ∧ Swept h h' l := by
  intro l
  induction l with
  | nil =>
    intro h self p bp c fuel hp hc _ hch hf
    obtain ⟨f, rfl⟩ : ∃ f, fuel = f + 1 := ⟨fuel - 1, by simp at hf; omega⟩
    have hcn : c = none := hch
    subst hcn
    refine ⟨h, none, by simp [Allocator_Collect.loop], ?_, by simp [IsChain], fun _ _ _ => rfl, ?_⟩
    · rw [hp, ← hc]
    · exact ⟨by simp, by simp, by simp⟩
  | cons a l ih =>
    intro h self p bp c fuel hp hc hpl hch hf
    obtain ⟨f, rfl⟩ : ∃ f, fuel = f + 1 := ⟨fuel - 1, by simp at hf; omega⟩
    have hal : a ∉ l := hch.head_not_mem
    obtain ⟨hca, cur, hcur, hl⟩ := hch
    subst hca
    have hpa : p ≠ a := fun e => hpl (e ▸ List.mem_cons_self _ _)
    have hpl' : p ∉ l := fun e => hpl (List.mem_cons_of_mem _ e)
    have hlf : l.length < f := by simp at hf; omega
    cases hu : cur.isUsed with
    | true =>
      have hlive : live h a = true := by simp [live, hcur, hu]
      obtain ⟨h', nx, hrun, hba, hchain, hout, hsw⟩ := ih h self a cur cur.pNext f hcur rfl hal hl hlf
      refine ⟨h', some a, ?_, ?_, ?_, ?_, ?_⟩
      · simp [Allocator_Collect.loop, hcur, hu, hrun]
      · rw [block_of_mem_eq (hout p hpl' hpa), hp, ← hc]
      · rw [List.filter_cons_of_pos hlive]
        exact ⟨rfl, _, hba, hchain⟩
      · intro x hx hxp
        exact hout x (fun e => hx (List.mem_cons_of_mem _ e)) (fun e => hx (e ▸ List.mem_cons_self _ _))
      · refine ⟨?_, ?_, ?_⟩
        · intro x hx hlx
          rcases List.mem_cons.mp hx with e | e
          · subst e; exact ⟨cur, nx, hcur, hba⟩
          · exact hsw.kept x e hlx
        · intro x hx hlx
          rcases List.mem_cons.mp hx with e | e
          · subst e; rw [hlive] at hlx; cases hlx
          · exact hsw.gone x e hlx
        · rw [hsw.log, List.filter_cons_of_neg (by simp [hlive])]
    | false =>
      have hdead : live h a = false := by simp [live, hcur, hu]
      have hap : a ≠ p := fun e => hpa e.symm
      let h1 : Heap := h.store p (some (Obj.block { bp with pNext := cur.pNext }))
      have h1a : h1.block a = some cur := by
        rw [block_of_mem_eq (mem_store_ne h _ hap)]; exact hcur
      let h3 : Heap :=
        { mem := fun x => if x = a then none else h1.mem x, log := h1.log ++ [Event.free a] }
      have hfree : h1.free (some a) = some h3 := free_eq (mem_of_block h1a)
      have h3p : h3.block p = some { bp with pNext := cur.pNext } := by
        simp [h3, h1, Heap.block, Heap.store, hpa]
      have h3mem : ∀ x, x ≠ a → x ≠ p → h3.mem x = h.mem x := by
        intro x hxa hxp
        simp [h3, h1, Heap.store, hxa, hxp]
      have h3l : ∀ x ∈ l, h3.mem x = h.mem x := fun x hx =>
        h3mem x (fun e => hal (e ▸ hx)) (fun e => hpl' (e ▸ hx))
      obtain ⟨h', nx, hrun, hbp, hchain, hout, hsw⟩ :=
        ih h3 self p { bp with pNext := cur.pNext } cur.pNext f h3p rfl hpl'
          (IsChain.congr h3l hl) hlf
      refine ⟨h', nx, ?_, hbp, ?_, ?_, ?_⟩
      · simp only [Allocator_Collect.loop, hcur, hu, setBlock_eq hp, Option.map,
          freeBlock_dead h1a hu, hfree, h3p]
        simpa using hrun
      · rw [List.filter_cons_of_neg (by simp [hdead]), ← filter_live_congr h3l]
        exact hchain
      · intro x hx hxp
        have hxa : x ≠ a := fun e => hx (e ▸ List.mem_cons_self _ _)
        rw [hout x (fun e => hx (List.mem_cons_of_mem _ e)) hxp, h3mem x hxa hxp]
      · refine ⟨?_, ?_, ?_⟩
        · intro x hx hlx
          rcases List.mem_cons.mp hx with e | e
          · subst e; rw [hdead] at hlx; cases hlx
          · obtain ⟨b, n, hb, hb'⟩ := hsw.kept x e (by rw [live_of_mem_eq (h3l x e)]; exact hlx)
            exact ⟨b, n, by rw [← block_of_mem_eq (h3l x e)]; exact hb, hb'⟩
        · intro x hx hlx
          rcases List.mem_cons.mp hx with e | e
          · subst e
            rw [hout x hal hap]
            simp [h3]
          · exact hsw.gone x e (by rw [live_of_mem_eq (h3l x e)]; exact hlx)
        · rw [hsw.log, List.filter_cons_of_pos (by simp [hdead]), filter_dead_congr h3l]
          simp [h3, h1, Heap.store]


theorem collect_loop_head : ∀ (l : List Nat) (h : Heap) (self : Allocator) (c : Option Nat)
    (fuel : Nat), self.pHead = c → IsChain h c l → l.length < fuel →
    ∃ h' self', Allocator_Collect.loop fuel h self c none = some (h', self') ∧
      self'.isInited = self.isInited ∧ IsChain h' self'.pHead (l.filter (live h)) ∧
      (∀ x, x ∉ l → h'.mem x = h.mem x) ∧ Swept h h' l := by
  intro l
  induction l with
  | nil =>
    intro h self c fuel hc hch hf
    obtain ⟨f, rfl⟩ : ∃ f, fuel = f + 1 := ⟨fuel - 1, by simp at hf; omega⟩
    have hcn : c = none := hch
    subst hcn
    exact ⟨h, self, by simp [Allocator_Collect.loop], rfl, by simpa [IsChain] using hc,
      fun _ _ => rfl, ⟨by simp, by simp, by simp⟩⟩
  | cons a l ih =>
    intro h self c fuel hc hch hf
    obtain ⟨f, rfl⟩ : ∃ f, fuel = f + 1 := ⟨fuel - 1, by simp at hf; omega⟩
    have hal : a ∉ l := hch.head_not_mem
    obtain ⟨hca, cur, hcur, hl⟩ := hch
    subst hca
    have hlf : l.length < f := by simp at hf; omega
    cases hu : cur.isUsed with
    | true =>
      have hlive : live h a = true := by simp [live, hcur, hu]
      obtain ⟨h', nx, hrun, hba, hchain, hout, hsw⟩ :=
        collect_loop_prev l h self a cur cur.pNext f hcur rfl hal hl hlf
      refine ⟨h', self, ?_, rfl, ?_, ?_, ?_⟩
      · simp [Allocator_Collect.loop, hcur, hu, hrun]
      · rw [List.filter_cons_of_pos hlive, hc]
        exact ⟨rfl, _, hba, hchain⟩
      · intro x hx
        exact hout x (fun e => hx (List.mem_cons_of_mem _ e)) (fun e => hx (e ▸ List.mem_cons_self _ _))
      · refine ⟨?_, ?_, ?_⟩
        · intro x hx hlx
          rcases List.mem_cons.mp hx with e | e
          · subst e; exact ⟨cur, nx, hcur, hba⟩
          · exact hsw.kept x e hlx
        · intro x hx hlx
          rcases List.mem_cons.mp hx with e | e
          · subst e; rw [hlive] at hlx; cases hlx
          · exact hsw.gone x e hlx
        · rw [hsw.log, List.filter_cons_of_neg (by simp [hlive])]
    | false =>
      have hdead : live h a = false := by simp [live, hcur, hu]
      let h3 : Heap :=
        { mem := fun x => if x = a then none else h.mem x, log := h.log ++ [Event.free a] }
      have hfree : h.free (some a) = some h3 := free_eq (mem_of_block hcur)
      have h3mem : ∀ x, x ≠ a → h3.mem x = h.mem x := by
        intro x hxa
        simp [h3, hxa]
      have h3l : ∀ x ∈ l, h3.mem x = h.mem x := fun x hx => h3mem x (fun e => hal (e ▸ hx))
      obtain ⟨h', self', hrun, hin, hchain, hout, hsw⟩ :=
        ih h3 { self with pHead := cur.pNext } cur.pNext f rfl (IsChain.congr h3l hl) hlf
      refine ⟨h', self', ?_, hin, ?_, ?_, ?_⟩
      · simp only [Allocator_Collect.loop, hcur, hu, freeBlock_dead hcur hu, hfree]
        simpa using hrun
      · rw [List.filter_cons_of_neg (by simp [hdead]), ← filter_live_congr h3l]
        exact hchain
      · intro x hx
        have hxa : x ≠ a := fun e => hx (e ▸ List.mem_cons_self _ _)
        rw [hout x (fun e => hx (List.mem_cons_of_mem _ e)), h3mem x hxa]
      · refine ⟨?_, ?_, ?_⟩
        · intro x hx hlx
          rcases List.mem_cons.mp hx with e | e
          · subst e; rw [hdead] at hlx; cases hlx
          · obtain ⟨b, n, hb, hb'⟩ := hsw.kept x e (by rw [live_of_mem_eq (h3l x e)]; exact hlx)
            exact ⟨b, n, by rw [← block_of_mem_eq (h3l x e)]; exact hb, hb'⟩
        · intro x hx hlx
          rcases List.mem_cons.mp hx with e | e
          · subst e
            rw [hout x hal]
            simp [h3]
          · exact hsw.gone x e (by rw [live_of_mem_eq (h3l x e)]; exact hlx)
        · rw [hsw.log, List.filter_cons_of_pos (by simp [hdead]), filter_dead_congr h3l]
          simp [h3]

theorem IsChain.head_eq {h : Heap} : ∀ {l : List Nat} {p : Option Nat},
    IsChain h p l → p = l.head?
  | [], _, hc => hc
  | _ :: _, _, hc => hc.1

theorem IsChain.last_terminal {h : Heap} : ∀ {l : List Nat} {p : Option Nat} {a : Nat},
    IsChain h p l → l.getLast? = some a → ∃ b, h.block a = some b ∧ b.pNext = none
  | [], _, _, _, hl => by simp at hl
  | [x], _, a, ⟨_, b, hb, hn⟩, hl => by
    simp at hl
    subst hl
    exact ⟨b, hb, hn⟩
  | _ :: y :: l, _, _, ⟨_, _, _, hn⟩, hl => by
    rw [List.getLast?_cons_cons] at hl
    exact IsChain.last_terminal hn hl

theorem Heap.ext_iff' {h h' : Heap} : h = h' ↔ h.mem = h'.mem ∧ h.log = h'.log := by
  cases h; cases h'; simp

theorem store_store (h : Heap) (p : Nat) (o o' : Option Obj) :
    (h.store p o).store p o' = h.store p o' := by
  rw [Heap.ext_iff']
  refine ⟨funext fun x => ?_, rfl⟩
  by_cases hx : x = p <;> simp [Heap.store, hx]

theorem initBlock_eq {h : Heap} {q : Nat} {b0 : MemoryBlock} (hb : h.block q = some b0)
    (sz : Nat) (u : Bool) (a n : Option Nat) :
    Allocator_InitBlock h q sz u a n = some (h.store q (some (Obj.block ⟨sz, true, u, a, n⟩))) := by
  simp [Allocator_InitBlock, bind, Option.bind, setBlock_eq hb, setBlock_eq (block_store_same _ _ _),
    store_store]

/-- The heap after a successful `Allocator_AllocateBlock`. -/
theorem allocateBlock_success_eq (sys : Sys) (h : Heap) (self : Allocator) (szSize p q : Nat)
    (hm : sys.memAns = some p) (hr : sys.blockAns = some q)
    (hp : h.mem p = none) (hq : h.mem q = none) (hpq : p ≠ q) :
    Allocator_AllocateBlock sys h self none szSize =
      some (SUCCESS,
        { mem := fun x =>
            if x = q then some (Obj.block ⟨szSize, true, true, some p, self.pHead⟩)
            else if x = p then some (Obj.bytes ((List.range szSize).map sys.junk))
            else h.mem x,
          log := h.log ++ [Event.mallocMem szSize (some p), Event.mallocBlock (some q)] },
        { self with pHead := some q }, some q) := by
  have hqp : q ≠ p := fun e => hpq e.symm
  let h2 : Heap :=
    { mem := fun x => if x = q then some (Obj.block sys.junkBlock)
        else if x = p then some (Obj.bytes ((List.range szSize).map sys.junk)) else h.mem x,
      log := h.log ++ [Event.mallocMem szSize (some p)] ++ [Event.mallocBlock (some q)] }
  have hb : h2.block q = some sys.junkBlock := by simp [h2, Heap.block]
  simp only [Allocator_AllocateBlock, hm, hr, Heap.malloc, hp, bind, Option.bind]
  simp only [hqp, hq, if_false, ne_eq, not_true_eq_false, reduceCtorEq]
  rw [show Allocator_InitBlock _ q szSize true (some p) self.pHead = _ from initBlock_eq hb _ _ _ _]
  simp only [Option.some.injEq, Prod.mk.injEq, true_and, and_true, Heap.ext_iff']
  refine ⟨funext fun x => ?_, by simp [h2, Heap.store]⟩
  by_cases hx : x = q <;> simp [h2, Heap.store, hx]

/-! ## Raw access -/

theorem buf_ne_block {h : Heap} {a p : Nat} {d : List Nat} {b : MemoryBlock}
    (hd : h.buf a = some d) (hb : h.block p = some b) : a ≠ p := by
  intro e
  subst e
  have := mem_of_block hb
  simp [Heap.buf, this] at hd

theorem buf_store_same (h : Heap) (a : Nat) (d : List Nat) :
    (h.store a (some (Obj.bytes d))).buf a = some d := by
  simp [Heap.buf, Heap.store]

/-- The heap after an accepted `Allocator_WriteToBlock`. -/
theorem writeToBlock_eq {h : Heap} {pb a : Nat} {b : MemoryBlock} {d : List Nat}
    (data : List Nat) (n : Nat) (hb : h.block pb = some b) (hu : b.isUsed = true)
    (ha : b.pAddr = some a) (hd : h.buf a = some d) (hn : n ≤ b.szSize) (hlen : n ≤ d.length)
    (hdata : n ≤ data.length) :
    Allocator_WriteToBlock h pb data n =
      some (h.store a (some (Obj.bytes (data.take n ++ d.drop n)))) := by
  simp [Allocator_WriteToBlock, hb, hu, ha, memcpy, hd, hlen, hdata, Nat.not_lt.mpr hn]

theorem readFromBlock_live {h : Heap} {pb : Nat} {b : MemoryBlock} (hb : h.block pb = some b)
    (hu : b.isUsed = true) : Allocator_ReadFromBlock h pb = some b.pAddr := by
  simp [Allocator_ReadFromBlock, hb, hu]

/-- One accepted write followed by a read. -/
theorem write_then_read {h : Heap} {pb a : Nat} {b : MemoryBlock} {d : List Nat}
    (data : List Nat) (n : Nat) (hb : h.block pb = some b) (hu : b.isUsed = true)
    (ha : b.pAddr = some a) (hd : h.buf a = some d) (hlen : d.length = b.szSize)
    (hdata : data.length = n) (hn : n ≤ b.szSize) :
    ∃ h' d', Allocator_WriteToBlock h pb data n = some h' ∧
      Allocator_ReadFromBlock h' pb = some (some a) ∧ h'.buf a = some d' ∧ d'.take n = data ∧
      h'.block pb = some b ∧ d'.length = b.szSize := by
  have hap : a ≠ pb := buf_ne_block hd hb
  have hb' : (h.store a (some (Obj.bytes (data.take n ++ d.drop n)))).block pb = some b := by
    rw [block_of_mem_eq (mem_store_ne h _ hap.symm)]; exact hb
  refine ⟨_, data.take n ++ d.drop n,
    writeToBlock_eq data n hb hu ha hd hn (by omega) (by omega), ?_, buf_store_same _ _ _, ?_,
    hb', ?_⟩
  · rw [readFromBlock_live hb' hu, ha]
  · subst hdata; simp
  · subst hdata; simp; omega

/-! ## Freeing -/

/-- The heap after `Allocator_FreeBlock` on a live block whose backing memory is
outstanding at `a`. -/
theorem freeBlock_live_eq {h : Heap} {p a : Nat} {b : MemoryBlock} {o : Obj}
    (hb : h.block p = some b) (hu : b.isUsed = true) (ha : b.pAddr = some a)
    (ho : h.mem a = some o) (hap : a ≠ p) :
    Allocator_FreeBlock h (some p) =
      some { mem := fun x =>
               if x = p then some (Obj.block { b with pAddr := none, isUsed := false })
               else if x = a then none else h.mem x,
             log := h.log ++ [Event.free a] } := by
  let h1 : Heap :=
    { mem := fun x => if x = a then none else h.mem x, log := h.log ++ [Event.free a] }
  have hb1 : h1.block p = some b := by
    have : h1.mem p = h.mem p := by simp [h1, hap.symm]
    rw [block_of_mem_eq this]; exact hb
  simp only [Allocator_FreeBlock, hb, hu, if_true, ha, free_eq ho, bind, Option.bind,
    setBlock_eq hb1, setBlock_eq (block_store_same _ _ _), store_store]
  simp only [Option.some.injEq, Heap.ext_iff']
  refine ⟨funext fun x => ?_, by simp [h1, Heap.store]⟩
  by_cases hx : x = p <;> simp [h1, Heap.store, hx]

/-- Whenever `Allocator_FreeBlock` returns, the block it was given is dead. -/
theorem freeBlock_result_dead {h h' : Heap} {p : Nat}
    (e : Allocator_FreeBlock h (some p) = some h') :
    ∃ b, h'.block p = some b ∧ b.isUsed = false := by
  unfold Allocator_FreeBlock at e
  cases hb : h.block p with
  | none => simp [hb] at e
  | some b =>
    cases hu : b.isUsed with
    | false =>
      simp [hb, hu] at e
      subst e
      exact ⟨b, hb, hu⟩
    | true =>
      simp only [hb, hu, if_true, Option.bind_eq_bind, Option.bind_eq_some] at e
      obtain ⟨_, _, h2, _, e⟩ := e
      cases hb2 : h2.block p with
      | none => simp [Heap.setBlock, hb2] at e
      | some b2 =>
        rw [setBlock_eq hb2] at e
        simp at e
        subst e
        exact ⟨_, block_store_same _ _ _, rfl⟩

theorem IsChain.congr_next {h h' : Heap} : ∀ {l : List Nat} {p : Option Nat},
    (∀ x ∈ l, ∀ b, h.block x = some b → ∃ b', h'.block x = some b' ∧ b'.pNext = b.pNext) →
    IsChain h p l → IsChain h' p l
  | [], _, _, hc => hc
  | a :: l, _, hm, ⟨hp, b, hb, hl⟩ => by
    obtain ⟨b', hb', hn⟩ := hm a (List.mem_cons_self a l) b hb
    refine ⟨hp, b', hb', ?_⟩
    rw [hn]
    exact IsChain.congr_next (fun x hx => hm x (List.mem_cons_of_mem a hx)) hl

/-! ## Every outcome of the operations -/

/-- The heap after `Allocator_AllocateBlock` failed to obtain a block record. -/
theorem allocateBlock_init_failure_eq (sys : Sys) (h : Heap) (self : Allocator) (szSize p : Nat)
    (hm : sys.memAns = some p) (hr : sys.blockAns = none) (hp : h.mem p = none) :
    Allocator_AllocateBlock sys h self none szSize =
      some (INITIALIZATION_FAILURE,
        { mem := fun x =>
            if x = p then some (Obj.bytes ((List.range szSize).map sys.junk)) else h.mem x,
          log := h.log ++ [Event.mallocMem szSize (some p), Event.mallocBlock none] },
        self, none) := by
  simp [Allocator_AllocateBlock, hm, hr, Heap.malloc, hp, bind, Option.bind]

/-- The four ways `Allocator_AllocateBlock` can return. -/
theorem allocateBlock_cases {sys : Sys} {h : Heap} {self : Allocator} {slot : Option Nat}
    {szSize : Nat} {r : Nat × Heap × Allocator × Option Nat}
    (e : Allocator_AllocateBlock sys h self slot szSize = some r) :
    (slot ≠ none ∧ r = (ALREADY_ALLOCATED, h, self, slot)) ∨
    (slot = none ∧ sys.memAns = none ∧
      r = (ALLOCATION_FAILURE, { h with log := h.log ++ [Event.mallocMem szSize none] },
        self, none)) ∨
    (slot = none ∧ ∃ p, sys.memAns = some p ∧ sys.blockAns = none ∧ h.mem p = none ∧
      r = (INITIALIZATION_FAILURE,
        { mem := fun x =>
            if x = p then some (Obj.bytes ((List.range szSize).map sys.junk)) else h.mem x,
          log := h.log ++ [Event.mallocMem szSize (some p), Event.mallocBlock none] },
        self, none)) ∨
    (slot = none ∧ ∃ p q, sys.memAns = some p ∧ sys.blockAns = some q ∧ h.mem p = none ∧
      h.mem q = none ∧ p ≠ q ∧
      r = (SUCCESS,
        { mem := fun x =>
            if x = q then some (Obj.block ⟨szSize, true, true, some p, self.pHead⟩)
            else if x = p then some (Obj.bytes ((List.range szSize).map sys.junk))
            else h.mem x,
          log := h.log ++ [Event.mallocMem szSize (some p), Event.mallocBlock (some q)] },
        { self with pHead := some q }, some q)) := by
  cases slot with
  | some s =>
    left
    simp [Allocator_AllocateBlock] at e
    exact ⟨by simp, e.symm⟩
  | none =>
    right
    cases hm : sys.memAns with
    | none =>
      left
      simp [Allocator_AllocateBlock, hm, Heap.malloc] at e
      exact ⟨rfl, rfl, e.symm⟩
    | some p =>
      right
      cases hp : h.mem p with
      | some o => simp [Allocator_AllocateBlock, hm, Heap.malloc, hp] at e
      | none =>
        cases hr : sys.blockAns with
        | none =>
          left
          rw [allocateBlock_init_failure_eq sys h self szSize p hm hr hp] at e
          exact ⟨rfl, p, rfl, rfl, hp, (Option.some.inj e).symm⟩
        | some q =>
          right
          by_cases hqp : q = p
          · subst hqp
            simp [Allocator_AllocateBlock, hm, hr, Heap.malloc, hp, bind, Option.bind] at e
          · cases hq : h.mem q with
            | some o =>
              simp [Allocator_AllocateBlock, hm, hr, Heap.malloc, hp, hq, hqp, bind,
                Option.bind] at e
            | none =>
              rw [allocateBlock_success_eq sys h self szSize p q hm hr hp hq
                (fun e' => hqp e'.symm)] at e
              exact ⟨rfl, p, q, rfl, rfl, hp, hq, fun e' => hqp e'.symm, (Option.some.inj e).symm⟩

/-- The ways `Allocator_FreeBlock` can return on a non-`NULL` handle. -/
theorem freeBlock_cases {h h' : Heap} {p : Nat} (e : Allocator_FreeBlock h (some p) = some h') :
    ∃ b, h.block p = some b ∧
      ((b.isUsed = false ∧ h' = h) ∨
       (b.isUsed = true ∧ b.pAddr = none ∧
         h' = h.store p (some (Obj.block { b with pAddr := none, isUsed := false }))) ∨
       (b.isUsed = true ∧ ∃ a o, b.pAddr = some a ∧ h.mem a = some o ∧ a ≠ p ∧
         h' = { mem := fun x =>
                  if x = p then some (Obj.block { b with pAddr := none, isUsed := false })
                  else if x = a then none else h.mem x,
                log := h.log ++ [Event.free a] })) := by
  cases hb : h.block p with
  | none => simp [Allocator_FreeBlock, hb] at e
  | some b =>
    refine ⟨b, rfl, ?_⟩
    cases hu : b.isUsed with
    | false =>
      left
      rw [freeBlock_dead hb hu] at e
      exact ⟨rfl, (Option.some.inj e).symm⟩
    | true =>
      right
      cases ha : b.pAddr with
      | none =>
        left
        simp only [Allocator_FreeBlock, hb, hu, if_true, ha, Heap.free, bind, Option.bind,
          setBlock_eq hb, setBlock_eq (block_store_same _ _ _), store_store] at e
        exact ⟨rfl, rfl, (Option.some.inj e).symm⟩
      | some a =>
        right
        cases ho : h.mem a with
        | none => simp [Allocator_FreeBlock, hb, hu, ha, Heap.free, ho] at e
        | some o =>
          by_cases hap : a = p
          · subst hap
            simp only [Allocator_FreeBlock, hb, hu, if_true, ha, free_eq ho, bind,
              Option.bind] at e
            simp [Heap.setBlock, Heap.block] at e
          · rw [freeBlock_live_eq hb hu ha ho hap] at e
            exact ⟨rfl, a, o, rfl, ho, hap, (Option.some.inj e).symm⟩

/-- The ways `Allocator_WriteToBlock` can return. -/
theorem writeToBlock_cases {h h' : Heap} {pb : Nat} {data : List Nat} {n : Nat}
    (e : Allocator_WriteToBlock h pb data n = some h') :
    h' = h ∨ ∃ b a d, h.block pb = some b ∧ b.isUsed = true ∧ n ≤ b.szSize ∧
      b.pAddr = some a ∧ h.buf a = some d ∧ n ≤ d.length ∧ n ≤ data.length ∧
      h' = h.store a (some (Obj.bytes (data.take n ++ d.drop n))) := by
  cases hb : h.block pb with
  | none => simp [Allocator_WriteToBlock, hb] at e
  | some b =>
    by_cases hg : b.isUsed = false ∨ b.szSize < n
    · left
      have : Allocator_WriteToBlock h pb data n = some h := by
        rcases hg with hg | hg <;> simp [Allocator_WriteToBlock, hb, hg]
      rw [this] at e
      exact (Option.some.inj e).symm
    · right
      have hu : b.isUsed = true := by
        cases hu : b.isUsed with
        | false => exact absurd (Or.inl hu) hg
        | true => rfl
      have hn : n ≤ b.szSize := by
        by_contra hc
        exact hg (Or.inr (by omega))
      cases ha : b.pAddr with
      | none => simp [Allocator_WriteToBlock, hb, hu, Nat.not_lt.mpr hn, ha, memcpy] at e
      | some a =>
        cases hd : h.buf a with
        | none => simp [Allocator_WriteToBlock, hb, hu, Nat.not_lt.mpr hn, ha, memcpy, hd] at e
        | some d =>
          by_cases hl : n ≤ d.length ∧ n ≤ data.length
          · rw [writeToBlock_eq data n hb hu ha hd hn hl.1 hl.2] at e
            exact ⟨b, a, d, rfl, hu, hn, ha, hd, hl.1, hl.2, (Option.some.inj e).symm⟩
          · simp [Allocator_WriteToBlock, hb, hu, Nat.not_lt.mpr hn, ha, memcpy, hd, hl] at e

/-! ## Preservation of the registry invariant -/

theorem IsChain.block_of_mem {h : Heap} {l : List Nat} {p : Option Nat} {a : Nat}
    (hc : IsChain h p l) (ha : a ∈ l) : ∃ b, h.block a = some b := by
  obtain ⟨_, ⟨_, b, hb, _⟩, _⟩ := IsChain.tail_of_mem hc ha
  exact ⟨b, hb⟩

theorem IsChain.mem_ne_of_fresh {h : Heap} {l : List Nat} {p : Option Nat} {a x : Nat}
    (hc : IsChain h p l) (ha : a ∈ l) (hx : h.block x = none) : a ≠ x := by
  intro e
  obtain ⟨b, hb⟩ := hc.block_of_mem ha
  rw [e, hx] at hb
  cases hb

theorem block_none_of_mem_none {h : Heap} {x : Nat} (e : h.mem x = none) : h.block x = none := by
  simp [Heap.block, e]

theorem block_none_of_buf {h : Heap} {x : Nat} {d : List Nat} (e : h.buf x = some d) :
    h.block x = none := by
  cases hb : h.block x with
  | none => rfl
  | some b => exact absurd rfl (buf_ne_block e hb)

theorem RegistryInv.of_mem_eq {h g : Heap} {l : List Nat} {p : Option Nat}
    (hm : ∀ x ∈ l, g.mem x = h.mem x) (hinv : RegistryInv h p l) : RegistryInv g p l :=
  ⟨IsChain.congr hm hinv.1, fun a ha b hb =>
    hinv.2 a ha b (by rw [← block_of_mem_eq (hm a ha)]; exact hb)⟩

/-- Rewriting one record of the registry, keeping its `pNext` and the block
invariant, keeps the registry invariant. -/
theorem RegistryInv.update {h h' : Heap} {l : List Nat} {hd : Option Nat} {p : Nat}
    {b c : MemoryBlock} (hinv : RegistryInv h hd l) (hb : h.block p = some b)
    (hc : h'.block p = some c) (hn : c.pNext = b.pNext) (hbi : BlockInv c)
    (hm : ∀ x ∈ l, x ≠ p → h'.mem x = h.mem x) : RegistryInv h' hd l := by
  refine ⟨IsChain.congr_next ?_ hinv.1, ?_⟩
  · intro x hx bx hbx
    by_cases hxp : x = p
    · subst hxp
      rw [hb] at hbx
      cases hbx
      exact ⟨c, hc, hn⟩
    · exact ⟨bx, by rw [block_of_mem_eq (hm x hx hxp)]; exact hbx, rfl⟩
  · intro x hx bx hbx
    by_cases hxp : x = p
    · subst hxp
      rw [hc] at hbx
      cases hbx
      exact hbi
    · exact hinv.2 x hx bx (by rw [← block_of_mem_eq (hm x hx hxp)]; exact hbx)

/-! ## Sweeps that find nothing to remove -/

theorem collect_loop_all_live : ∀ (l : List Nat) (h : Heap) (self : Allocator)
    (c pPrev : Option Nat) (fuel : Nat), IsChain h c l → (∀ a ∈ l, live h a = true) →
    l.length < fuel → Allocator_Collect.loop fuel h self c pPrev = some (h, self) := by
  intro l
  induction l with
  | nil =>
    intro h self c pPrev fuel hch _ hf
    obtain ⟨f, rfl⟩ : ∃ f, fuel = f + 1 := ⟨fuel - 1, by simp at hf; omega⟩
    have hcn : c = none := hch
    subst hcn
    simp [Allocator_Collect.loop]
  | cons a l ih =>
    intro h self c pPrev fuel hch hlive hf
    obtain ⟨f, rfl⟩ : ∃ f, fuel = f + 1 := ⟨fuel - 1, by simp at hf; omega⟩
    obtain ⟨hca, cur, hcur, hl⟩ := hch
    subst hca
    have hu : cur.isUsed = true := by
      have := hlive a (List.mem_cons_self a l)
      simpa [live, hcur] using this
    have hlf : l.length < f := by simp at hf; omega
    simp only [Allocator_Collect.loop, hcur, hu]
    simpa using ih h self cur.pNext (some a) f hl
      (fun x hx => hlive x (List.mem_cons_of_mem a hx)) hlf

/-- After a sweep every record of the new registry is live. -/
theorem collect_survivors_live {h h' : Heap} {l : List Nat} (hsw : Swept h h' l) :
    ∀ a ∈ l.filter (fun a => live h a), live h' a = true := by
  intro a ha
  obtain ⟨hal, hlive⟩ := List.mem_filter.mp ha
  obtain ⟨b, nx, hb, hb'⟩ := hsw.kept a hal hlive
  have hu : b.isUsed = true := by simpa [live, hb] using hlive
  simp [live, hb', hu]

/-! ## Frames of `Allocator_FreeBlock` and `Allocator_Collect` -/

/-- What `Allocator_FreeBlock` does to the record it is given and to the rest of
the heap: only the record and, for a live record, its `pAddr` are touched. -/
theorem freeBlock_frame {h h' : Heap} {p : Nat} (e : Allocator_FreeBlock h (some p) = some h') :
    ∃ b, h.block p = some b ∧
      h'.block p = some (if b.isUsed = true then { b with pAddr := none, isUsed := false } else b) ∧
      ∀ x, x ≠ p → (b.isUsed = true → b.pAddr ≠ some x) → h'.mem x = h.mem x := by
  obtain ⟨b, hb, hcase⟩ := freeBlock_cases e
  refine ⟨b, hb, ?_⟩
  rcases hcase with ⟨hu, hh⟩ | ⟨hu, _, hh⟩ | ⟨hu, a, o, ha, _, hap, hh⟩
  · subst hh
    exact ⟨by simp [hu, hb], fun _ _ _ => rfl⟩
  · subst hh
    exact ⟨by simp [hu, block_store_same], fun x hx _ => mem_store_ne h _ hx⟩
  · subst hh
    refine ⟨by simp [hu, Heap.block], fun x hx hne => ?_⟩
    have hxa : x ≠ a := fun e' => hne hu (by rw [ha, e'])
    simp [hx, hxa]

/-- `Allocator_FreeBlock` keeps a chain when the backing memory of the freed block
is not itself a block record. -/
theorem IsChain.of_freeBlock {h h' : Heap} {p : Nat} {l : List Nat} {c : Option Nat}
    (e : Allocator_FreeBlock h (some p) = some h')
    (htyped : ∀ b a, h.block p = some b → b.pAddr = some a → h.block a = none)
    (hc : IsChain h c l) : IsChain h' c l := by
  obtain ⟨b, hb, hb', hfr⟩ := freeBlock_frame e
  refine IsChain.congr_next ?_ hc
  intro x _ bx hbx
  by_cases hxp : x = p
  · subst hxp
    rw [hb] at hbx
    cases hbx
    refine ⟨_, hb', ?_⟩
    split <;> rfl
  · refine ⟨bx, ?_, rfl⟩
    rw [block_of_mem_eq (hfr x hxp ?_)]
    · exact hbx
    · intro _ hpa
      rw [htyped b x hb hpa] at hbx
      cases hbx

/-! ## Isolation of a live block -/

theorem buf_of_mem_eq {h h' : Heap} {x : Nat} (e : h'.mem x = h.mem x) : h'.buf x = h.buf x := by
  simp [Heap.buf, e]

theorem mem_ne_none_of_buf {h : Heap} {x : Nat} {d : List Nat} (e : h.buf x = some d) :
    h.mem x ≠ none := by
  intro hn
  simp [Heap.buf, hn] at e

theorem Intact.intro {h : Heap} {self : Allocator} {pb a : Nat} {d : List Nat} {l : List Nat}
    {b : MemoryBlock} (hc : IsChain h self.pHead l) (hpb : pb ∈ l) (hb : h.block pb = some b)
    (hu : b.isUsed = true) (ha : b.pAddr = some a) (hd : h.buf a = some d) :
    Intact h self pb a d :=
  ⟨⟨l, hc, hpb⟩, by simp [live, hb, hu], by rw [readFromBlock_live hb hu, ha], hd⟩

/-! ## The tracking invariant -/

theorem buf_of_mem {h : Heap} {a : Nat} {d : List Nat} (e : h.buf a = some d) :
    h.mem a = some (Obj.bytes d) := by
  unfold Heap.buf at e
  split at e
  · next d' hd' => simp at e; rw [hd', e]
  · simp at e

theorem OwnedBy.iff_of_block_eq {h h' : Heap} {l : List Nat} (hm : ∀ y ∈ l, h'.block y = h.block y)
    (x : Nat) : OwnedBy h' l x ↔ OwnedBy h l x := by
  constructor
  · rintro (hx | ⟨y, hy, b, hb, hu, ha⟩)
    · exact Or.inl hx
    · exact Or.inr ⟨y, hy, b, by rw [← hm y hy]; exact hb, hu, ha⟩
  · rintro (hx | ⟨y, hy, b, hb, hu, ha⟩)
    · exact Or.inl hx
    · exact Or.inr ⟨y, hy, b, by rw [hm y hy]; exact hb, hu, ha⟩

/-- Whatever is owned by the registry is outstanding. -/
theorem OwnedBy.outstanding {h : Heap} {l : List Nat} {c : Option Nat} {x : Nat}
    (hc : IsChain h c l) (ho : OwnsBuffers h l) (hx : OwnedBy h l x) : h.mem x ≠ none := by
  rcases hx with hx | ⟨y, hy, b, hb, hu, ha⟩
  · obtain ⟨b, hb⟩ := hc.block_of_mem hx
    rw [mem_of_block hb]
    simp
  · obtain ⟨a, d, ha', hd⟩ := ho.backed y hy b hb hu
    rw [ha] at ha'
    cases ha'
    exact mem_ne_none_of_buf hd

/-- A heap that agrees with `h` on the records of `l` and on their buffers keeps
`OwnsBuffers`. -/
theorem OwnsBuffers.of_block_eq {h h' : Heap} {l : List Nat}
    (hm : ∀ y ∈ l, h'.block y = h.block y)
    (hbuf : ∀ y ∈ l, ∀ b a, h.block y = some b → b.isUsed = true → b.pAddr = some a →
      h'.buf a = h.buf a)
    (ho : OwnsBuffers h l) : OwnsBuffers h' l := by
  refine ⟨?_, ?_⟩
  · intro x hx b hb hu
    rw [hm x hx] at hb
    obtain ⟨a, d, ha, hd⟩ := ho.backed x hx b hb hu
    exact ⟨a, d, ha, by rw [hbuf x hx b a hb hu ha]; exact hd⟩
  · intro x hx y hy bx bz a hbx hbz hux huz hax haz
    rw [hm x hx] at hbx
    rw [hm y hy] at hbz
    exact ho.exclusive x hx y hy bx bz a hbx hbz hux huz hax haz

theorem mem_stillOwned {h : Heap} {owned : List Nat} {x : Nat} :
    x ∈ stillOwned h owned ↔ x ∈ owned ∧ h.mem x ≠ none := by
  simp [stillOwned, Option.isSome_iff_ne_none]

/-- A heap that agrees with the old one on everything that was outstanding keeps
the tracking invariant. -/
theorem TrackedInv.extend {t : Tracked} {l : List Nat} {g : Heap} (hinv : TrackedInv t l)
    (hm : ∀ x, t.heap.mem x ≠ none → g.mem x = t.heap.mem x) :
    TrackedInv ⟨g, t.self, t.owned⟩ l := by
  have hblk : ∀ y ∈ l, g.block y = t.heap.block y := by
    intro y hy
    obtain ⟨b, hb⟩ := hinv.chain.block_of_mem hy
    exact block_of_mem_eq (hm y (by rw [mem_of_block hb]; simp))
  refine ⟨IsChain.congr (fun x hx => ?_) hinv.chain, OwnsBuffers.of_block_eq hblk ?_ hinv.owns, ?_⟩
  · obtain ⟨b, hb⟩ := hinv.chain.block_of_mem hx
    exact hm x (by rw [mem_of_block hb]; simp)
  · intro y hy b a hb hu ha
    obtain ⟨a', d, ha', hd⟩ := hinv.owns.backed y hy b hb hu
    rw [ha] at ha'
    cases ha'
    exact buf_of_mem_eq (hm a (mem_ne_none_of_buf hd))
  · intro x
    rw [OwnedBy.iff_of_block_eq hblk]
    exact hinv.owned_iff x

/-- `Allocator_AllocateBlock`, whatever its outcome, keeps the tracking invariant. -/
theorem TrackedInv.alloc {t t' : Tracked} {l : List Nat} {sys : Sys} {slot : Option Nat}
    {szSize : Nat} (hinv : TrackedInv t l)
    (e : t.step (Op.alloc sys slot szSize) = some t') : ∃ l', TrackedInv t' l' := by
  unfold Tracked.step at e
  cases hr : Allocator_AllocateBlock sys t.heap t.self slot szSize with
  | none => simp [hr] at e
  | some r =>
    obtain ⟨code, h', self', slot'⟩ := r
    simp only [hr, Option.some.injEq] at e
    subst e
    rcases allocateBlock_cases hr with ⟨_, hr'⟩ | ⟨_, _, hr'⟩ | ⟨_, p, _, _, hp, hr'⟩ |
      ⟨_, p, q, hmp, _, hp, hq, hpq, hr'⟩
    · cases hr'
      exact ⟨l, by simpa [ALREADY_ALLOCATED, SUCCESS] using hinv⟩
    · cases hr'
      refine ⟨l, ?_⟩
      simpa [ALLOCATION_FAILURE, SUCCESS] using hinv.extend (g :=
        { t.heap with log := t.heap.log ++ [Event.mallocMem szSize none] }) (fun _ _ => rfl)
    · cases hr'
      refine ⟨l, ?_⟩
      simpa [INITIALIZATION_FAILURE, SUCCESS] using hinv.extend (g :=
        { mem := fun x =>
            if x = p then some (Obj.bytes ((List.range szSize).map sys.junk)) else t.heap.mem x,
          log := t.heap.log ++ [Event.mallocMem szSize (some p), Event.mallocBlock none] })
        (fun x hx => by
          have hxp : x ≠ p := fun e' => hx (e' ▸ hp)
          simp [hxp])
    · cases hr'
      have hold := hinv.extend (g :=
        { mem := fun x =>
            if x = q then some (Obj.block ⟨szSize, true, true, some p, t.self.pHead⟩)
            else if x = p then some (Obj.bytes ((List.range szSize).map sys.junk))
            else t.heap.mem x,
          log := t.heap.log ++ [Event.mallocMem szSize (some p), Event.mallocBlock (some q)] })
        (fun x hx => by
          have hxp : x ≠ p := fun e' => hx (e' ▸ hp)
          have hxq : x ≠ q := fun e' => hx (e' ▸ hq)
          simp [hxp, hxq])
      obtain ⟨hch, hown, hiff⟩ := hold
      simp only at hch hown hiff
      have hql : q ∉ l := fun hmem =>
        absurd rfl (hinv.chain.mem_ne_of_fresh hmem (block_none_of_mem_none hq))
      have hpl : p ∉ l := fun hmem =>
        absurd rfl (hinv.chain.mem_ne_of_fresh hmem (block_none_of_mem_none hp))
      -- no record of the old registry references the fresh buffer
      have hnoref : ∀ y ∈ l, ∀ b, t.heap.block y = some b → b.isUsed = true →
          b.pAddr ≠ some p := by
        intro y hy b hb hu hpa
        obtain ⟨a, d, ha, hd⟩ := hinv.owns.backed y hy b hb hu
        rw [hpa] at ha
        cases ha
        exact mem_ne_none_of_buf hd hp
      have hblk : ∀ y ∈ l, Heap.block
          { mem := fun x =>
              if x = q then some (Obj.block ⟨szSize, true, true, some p, t.self.pHead⟩)
              else if x = p then some (Obj.bytes ((List.range szSize).map sys.junk))
              else t.heap.mem x,
            log := t.heap.log ++ [Event.mallocMem szSize (some p), Event.mallocBlock (some q)] }
          y = t.heap.block y := by
        intro y hy
        have hyq : y ≠ q := fun e' => hql (e' ▸ hy)
        have hyp : y ≠ p := fun e' => hpl (e' ▸ hy)
        simp [Heap.block, hyq, hyp]
      refine ⟨q :: l, ⟨rfl, ⟨szSize, true, true, some p, t.self.pHead⟩, by simp [Heap.block], hch⟩,
        ⟨?_, ?_⟩, ?_⟩
      · intro x hx b hb hu
        rcases List.mem_cons.mp hx with e' | e'
        · subst e'
          simp [Heap.block] at hb
          subst hb
          exact ⟨p, (List.range szSize).map sys.junk, rfl, by simp [Heap.buf, hpq]⟩
        · exact hown.backed x e' b hb hu
      · intro x hx y hy bx bz a hbx hbz hux huz hax haz
        rcases List.mem_cons.mp hx with ex | ex <;> rcases List.mem_cons.mp hy with ey | ey
        · rw [ex, ey]
        · subst ex
          simp [Heap.block] at hbx
          subst hbx
          cases hax
          rw [hblk y ey] at hbz
          exact absurd haz (hnoref y ey bz hbz huz)
        · subst ey
          simp [Heap.block] at hbz
          subst hbz
          cases haz
          rw [hblk x ex] at hbx
          exact absurd hax (hnoref x ex bx hbx hux)
        · exact hown.exclusive x ex y ey bx bz a hbx hbz hux huz hax haz
      · intro x
        simp only [hmp, Option.toList, if_true, List.cons_append, List.nil_append,
          List.mem_cons]
        rw [hiff x]
        constructor
        · rintro (hx | hx | hx)
          · exact Or.inl (List.mem_cons.mpr (Or.inl hx))
          · subst hx
            exact Or.inr ⟨q, List.mem_cons_self q l, ⟨szSize, true, true, some x, t.self.pHead⟩,
              by simp [Heap.block], rfl, rfl⟩
          · rcases hx with hx | ⟨y, hy, b, hb, hu, ha⟩
            · exact Or.inl (List.mem_cons_of_mem q hx)
            · exact Or.inr ⟨y, List.mem_cons_of_mem q hy, b, hb, hu, ha⟩
        · rintro (hx | ⟨y, hy, b, hb, hu, ha⟩)
          · rcases List.mem_cons.mp hx with hx | hx
            · exact Or.inl hx
            · exact Or.inr (Or.inr (Or.inl hx))
          · rcases List.mem_cons.mp hy with hy | hy
            · subst hy
              simp [Heap.block] at hb
              subst hb
              cases ha
              exact Or.inr (Or.inl rfl)
            · exact Or.inr (Or.inr (Or.inr ⟨y, hy, b, hb, hu, ha⟩))

theorem TrackedInv.stillOwned_self {t : Tracked} {l : List Nat} (hinv : TrackedInv t l) :
    TrackedInv ⟨t.heap, t.self, stillOwned t.heap t.owned⟩ l := by
  refine ⟨hinv.chain, hinv.owns, fun x => ?_⟩
  rw [mem_stillOwned, hinv.owned_iff x]
  exact ⟨fun hx => hx.1, fun hx => ⟨hx, OwnedBy.outstanding hinv.chain hinv.owns hx⟩⟩

/-- `Allocator_FreeBlock` on a handle of the registry returns (it releases only
what is outstanding) and keeps the tracking invariant. -/
theorem TrackedInv.free {t : Tracked} {l : List Nat} {p : Nat} (hinv : TrackedInv t l)
    (hp : p ∈ l) : ∃ t', t.step (Op.free p) = some t' ∧ TrackedInv t' l := by
  obtain ⟨b, hb⟩ := hinv.chain.block_of_mem hp
  cases hu : b.isUsed with
  | false =>
    refine ⟨⟨t.heap, t.self, stillOwned t.heap t.owned⟩, ?_, hinv.stillOwned_self⟩
    simp [Tracked.step, freeBlock_dead hb hu]
  | true =>
    obtain ⟨a, d, ha, hd⟩ := hinv.owns.backed p hp b hb hu
    have hap : a ≠ p := buf_ne_block hd hb
    have hba : t.heap.block a = none := block_none_of_buf hd
    have hal : a ∉ l := fun hmem => absurd rfl (hinv.chain.mem_ne_of_fresh hmem hba)
    obtain ⟨h', hfree, hh'⟩ : ∃ h', Allocator_FreeBlock t.heap (some p) = some h' ∧
        h' = { mem := fun x =>
                 if x = p then some (Obj.block { b with pAddr := none, isUsed := false })
                 else if x = a then none else t.heap.mem x,
               log := t.heap.log ++ [Event.free a] } :=
      ⟨_, freeBlock_live_eq hb hu ha (buf_of_mem hd) hap, rfl⟩
    have hm : ∀ x, x ≠ p → x ≠ a → h'.mem x = t.heap.mem x := by
      intro x hxp hxa
      subst hh'
      simp [hxp, hxa]
    have hbp : h'.block p = some { b with pAddr := none, isUsed := false } := by
      subst hh'
      simp [Heap.block]
    have hma : h'.mem a = none := by
      subst hh'
      simp [hap]
    have hblk : ∀ y ∈ l, y ≠ p → h'.block y = t.heap.block y := fun y hy hyp =>
      block_of_mem_eq (hm y hyp (fun e' => hal (e' ▸ hy)))
    have hch : IsChain h' t.self.pHead l :=
      IsChain.of_freeBlock hfree (fun b' a' hb' ha' => by
        rw [hb] at hb'
        cases hb'
        rw [ha] at ha'
        cases ha'
        exact hba) hinv.chain
    -- a live record of the new heap is a live record of the old one, other than `p`
    have hlive : ∀ y ∈ l, ∀ bz, h'.block y = some bz → bz.isUsed = true →
        y ≠ p ∧ t.heap.block y = some bz := by
      intro y hy bz hbz huz
      have hyp : y ≠ p := by
        intro e'
        subst e'
        rw [hbp] at hbz
        cases hbz
        cases huz
      exact ⟨hyp, by rw [← hblk y hy hyp]; exact hbz⟩
    have hbuf : ∀ y ∈ l, y ≠ p → ∀ bz ax, t.heap.block y = some bz → bz.isUsed = true →
        bz.pAddr = some ax → h'.buf ax = t.heap.buf ax := by
      intro y hy hyp bz ax hbz huz hax
      obtain ⟨ax', dx, hax', hdx⟩ := hinv.owns.backed y hy bz hbz huz
      rw [hax] at hax'
      cases hax'
      have hne : ax ≠ a := fun e' =>
        hyp (hinv.owns.exclusive y hy p hp bz b a hbz hb huz hu (by rw [hax, e']) ha)
      exact buf_of_mem_eq (hm ax (buf_ne_block hdx hb) hne)
    have hown : OwnsBuffers h' l := by
      refine ⟨?_, ?_⟩
      · intro x hx bx hbx hux
        obtain ⟨hxp, hbx0⟩ := hlive x hx bx hbx hux
        obtain ⟨ax, dx, hax, hdx⟩ := hinv.owns.backed x hx bx hbx0 hux
        exact ⟨ax, dx, hax, by rw [hbuf x hx hxp bx ax hbx0 hux hax]; exact hdx⟩
      · intro x hx y hy bx bz c hbx hbz hux huz hax haz
        exact hinv.owns.exclusive x hx y hy bx bz c (hlive x hx bx hbx hux).2
          (hlive y hy bz hbz huz).2 hux huz hax haz
    refine ⟨⟨h', t.self, stillOwned h' t.owned⟩, by simp [Tracked.step, hfree],
      hch, hown, fun x => ?_⟩
    rw [mem_stillOwned, hinv.owned_iff x]
    constructor
    · rintro ⟨hx | ⟨y, hy, bz, hbz, huz, haz⟩, hout⟩
      · exact Or.inl hx
      · have hyp : y ≠ p := by
          intro e'
          subst e'
          rw [hb] at hbz
          cases hbz
          rw [ha] at haz
          cases haz
          exact hout hma
        exact Or.inr ⟨y, hy, bz, by rw [hblk y hy hyp]; exact hbz, huz, haz⟩
    · intro hx
      refine ⟨?_, OwnedBy.outstanding hch hown hx⟩
      rcases hx with hx | ⟨y, hy, bz, hbz, huz, haz⟩
      · exact Or.inl hx
      · exact Or.inr ⟨y, hy, bz, (hlive y hy bz hbz huz).2, huz, haz⟩

/-- `Allocator_Collect` returns (it releases only what is outstanding) and keeps
the tracking invariant, for the registry of the survivors. -/
theorem TrackedInv.collect {t : Tracked} {l : List Nat} {fuel : Nat} (hinv : TrackedInv t l)
    (hf : l.length < fuel) :
    ∃ t', t.step (Op.collect fuel) = some t' ∧
      TrackedInv t' (l.filter (fun a => live t.heap a)) := by
  obtain ⟨h', self', hrun, _, hchain, hout, hsw⟩ :=
    collect_loop_head l t.heap t.self t.self.pHead fuel rfl hinv.chain hf
  have hrun' : Allocator_Collect fuel t.heap t.self = some (h', self') := hrun
  -- a record of the new registry was a live record, and only its `pNext` changed
  have hkept : ∀ y ∈ l.filter (fun a => live t.heap a), ∀ bz', h'.block y = some bz' →
      y ∈ l ∧ ∃ bz, t.heap.block y = some bz ∧ bz.isUsed = true ∧
        bz'.isUsed = bz.isUsed ∧ bz'.pAddr = bz.pAddr := by
    intro y hy bz' hbz'
    obtain ⟨hyl, hlive⟩ := List.mem_filter.mp hy
    obtain ⟨bz, nx, hbz, hbzn⟩ := hsw.kept y hyl hlive
    rw [hbzn] at hbz'
    cases hbz'
    exact ⟨hyl, bz, hbz, by simpa [live, hbz] using hlive, rfl, rfl⟩
  have hbufs : ∀ ax dx, t.heap.buf ax = some dx → h'.buf ax = some dx := by
    intro ax dx hdx
    have hax : ax ∉ l := fun hmem =>
      absurd rfl (hinv.chain.mem_ne_of_fresh hmem (block_none_of_buf hdx))
    rw [buf_of_mem_eq (hout ax hax)]
    exact hdx
  have hown : OwnsBuffers h' (l.filter (fun a => live t.heap a)) := by
    refine ⟨?_, ?_⟩
    · intro x hx bx' hbx' hux
      obtain ⟨hxl, bx, hbx, hu, _, hpa⟩ := hkept x hx bx' hbx'
      obtain ⟨ax, dx, hax, hdx⟩ := hinv.owns.backed x hxl bx hbx hu
      exact ⟨ax, dx, by rw [hpa, hax], hbufs ax dx hdx⟩
    · intro x hx y hy bx' bz' c hbx' hbz' _ _ hax haz
      obtain ⟨hxl, bx, hbx, hux, _, hpx⟩ := hkept x hx bx' hbx'
      obtain ⟨hyl, bz, hbz, huz, _, hpz⟩ := hkept y hy bz' hbz'
      exact hinv.owns.exclusive x hxl y hyl bx bz c hbx hbz hux huz (by rw [← hpx, hax])
        (by rw [← hpz, haz])
  refine ⟨⟨h', self', stillOwned h' t.owned⟩, by simp [Tracked.step, hrun'], hchain, hown,
    fun x => ?_⟩
  rw [mem_stillOwned, hinv.owned_iff x]
  constructor
  · rintro ⟨hx | ⟨y, hy, bz, hbz, huz, haz⟩, hmem⟩
    · cases hlx : live t.heap x with
      | true => exact Or.inl (List.mem_filter.mpr ⟨hx, hlx⟩)
      | false => exact absurd (hsw.gone x hx hlx) hmem
    · have hly : live t.heap y = true := by simp [live, hbz, huz]
      obtain ⟨bz0, nx, hbz0, hbzn⟩ := hsw.kept y hy hly
      rw [hbz] at hbz0
      cases hbz0
      exact Or.inr ⟨y, List.mem_filter.mpr ⟨hy, hly⟩, _, hbzn, huz, haz⟩
  · intro hx
    refine ⟨?_, OwnedBy.outstanding hchain hown hx⟩
    rcases hx with hx | ⟨y, hy, bz', hbz', huz, haz⟩
    · exact Or.inl (List.mem_filter.mp hx).1
    · obtain ⟨hyl, bz, hbz, hu, _, hpa⟩ := hkept y hy bz' hbz'
      exact Or.inr ⟨y, hyl, bz, hbz, hu, by rw [← hpa, haz]⟩

/-! ## Teardown -/

/-- One iteration of the loop of `Allocator_Destroy` on the record `a`: the calls
`Allocator_FreeBlock(a)` and `free(a)` return, and release exactly `a` and, when
`a` is live, its backing buffer, each once. -/
theorem destroy_node {h : Heap} {a : Nat} {cur : MemoryBlock} (hcur : h.block a = some cur)
    (hback : cur.isUsed = true → ∃ pa d, cur.pAddr = some pa ∧ h.buf pa = some d) :
    ∃ (h1 h2 : Heap) (R : List Nat), Allocator_FreeBlock h (some a) = some h1 ∧ h1.free (some a) = some h2 ∧
      h2.log = h.log ++ R.map Event.free ∧ R.Nodup ∧
      (∀ x, x ∈ R ↔ x = a ∨ (cur.isUsed = true ∧ cur.pAddr = some x)) ∧
      (∀ x ∈ R, h2.mem x = none) ∧ (∀ x, x ∉ R → h2.mem x = h.mem x) := by
  cases hu : cur.isUsed with
  | false =>
    refine ⟨h, _, [a], freeBlock_dead hcur hu, free_eq (mem_of_block hcur), by simp, by simp,
      by simp, by simp, ?_⟩
    intro x hx
    have hxa : x ≠ a := by simpa using hx
    simp [hxa]
  | true =>
    obtain ⟨pa, d, hpa, hd⟩ := hback hu
    have hne : pa ≠ a := buf_ne_block hd hcur
    obtain ⟨h1, hfree, hh1⟩ : ∃ h1, Allocator_FreeBlock h (some a) = some h1 ∧
        h1 = { mem := fun x =>
                 if x = a then some (Obj.block { cur with pAddr := none, isUsed := false })
                 else if x = pa then none else h.mem x,
               log := h.log ++ [Event.free pa] } :=
      ⟨_, freeBlock_live_eq hcur hu hpa (buf_of_mem hd) hne, rfl⟩
    have h1a : h1.mem a = some (Obj.block { cur with pAddr := none, isUsed := false }) := by
      subst hh1
      simp
    refine ⟨h1, _, [pa, a], hfree, free_eq h1a, ?_, ?_, ?_, ?_, ?_⟩
    · subst hh1
      simp
    · simp [hne]
    · intro x
      simp only [List.mem_cons, List.mem_singleton, List.not_mem_nil, or_false, hpa,
        Option.some.injEq, true_and]
      constructor
      · rintro (hx | hx)
        · exact Or.inr hx.symm
        · exact Or.inl hx
      · rintro (hx | hx)
        · exact Or.inr hx
        · exact Or.inl hx.symm
    · intro x hx
      subst hh1
      simp only [List.mem_cons, List.mem_singleton, List.not_mem_nil, or_false] at hx
      rcases hx with hx | hx
      · subst hx
        simp [hne]
      · subst hx
        simp
    · intro x hx
      subst hh1
      simp only [List.mem_cons, List.mem_singleton, List.not_mem_nil, or_false, not_or] at hx
      simp [hx.1, hx.2]

/-- The loop of `Allocator_Destroy` over the chain `l` returns; the addresses `L`
it releases are exactly the records of `l` and the buffers of its live records,
each released once; nothing else in the heap changes. -/
theorem destroy_loop_spec : ∀ (l : List Nat) (h : Heap) (c : Option Nat) (fuel : Nat),
    IsChain h c l → OwnsBuffers h l → l.length < fuel →
    ∃ (h' : Heap) (L : List Nat), Allocator_Destroy.loop fuel h c = some h' ∧
      h'.log = h.log ++ L.map Event.free ∧ L.Nodup ∧ (∀ x, x ∈ L ↔ OwnedBy h l x) ∧
      (∀ x, OwnedBy h l x → h'.mem x = none) ∧
      (∀ x, ¬ OwnedBy h l x → h'.mem x = h.mem x) := by
  intro l
  induction l with
  | nil =>
    intro h c fuel hch _ hf
    obtain ⟨f, rfl⟩ : ∃ f, fuel = f + 1 := ⟨fuel - 1, by simp at hf; omega⟩
    have hcn : c = none := hch
    subst hcn
    refine ⟨h, [], by simp [Allocator_Destroy.loop], by simp, List.nodup_nil, ?_, ?_,
      fun _ _ => rfl⟩
    · intro x
      simp [OwnedBy]
    · intro x hx
      simp [OwnedBy] at hx
  | cons a l ih =>
    intro h c fuel hch hown hf
    obtain ⟨f, rfl⟩ : ∃ f, fuel = f + 1 := ⟨fuel - 1, by simp at hf; omega⟩
    have hal : a ∉ l := hch.head_not_mem
    have hchain := hch
    obtain ⟨hca, cur, hcur, hl⟩ := hch
    subst hca
    have hlf : l.length < f := by simp at hf; omega
    obtain ⟨h1, h2, R, hfb, hfr, hlog, hRnd, hR, hRnone, hRframe⟩ :=
      destroy_node hcur (hown.backed a (List.mem_cons_self a l) cur hcur)
    -- the records of the tail and their buffers are not released by this iteration
    have hlR : ∀ y ∈ l, y ∉ R := by
      intro y hy hyR
      rcases (hR y).mp hyR with e | ⟨hu, hpa⟩
      · exact hal (e ▸ hy)
      · obtain ⟨pa, d, hpa', hd⟩ := hown.backed a (List.mem_cons_self a l) cur hcur hu
        rw [hpa] at hpa'
        cases hpa'
        exact hl.mem_ne_of_fresh hy (block_none_of_buf hd) rfl
    have hbufR : ∀ y ∈ l, ∀ b ax, h.block y = some b → b.isUsed = true → b.pAddr = some ax →
        ax ∉ R := by
      intro y hy b ax hb hu hax haxR
      obtain ⟨ax', dx, hax', hdx⟩ := hown.backed y (List.mem_cons_of_mem a hy) b hb hu
      rw [hax] at hax'
      cases hax'
      rcases (hR ax).mp haxR with e | ⟨hcu, hpa⟩
      · exact buf_ne_block hdx hcur e
      · have := hown.exclusive y (List.mem_cons_of_mem a hy) a (List.mem_cons_self a l) b cur ax
          hb hcur hu hcu hax hpa
        exact hal (this ▸ hy)
    have hblk : ∀ y ∈ l, h2.block y = h.block y := fun y hy =>
      block_of_mem_eq (hRframe y (hlR y hy))
    have hch2 : IsChain h2 cur.pNext l :=
      IsChain.congr (fun y hy => hRframe y (hlR y hy)) hl
    have hown0 : OwnsBuffers h l :=
      ⟨fun x hx => hown.backed x (List.mem_cons_of_mem a hx),
        fun x hx y hy => hown.exclusive x (List.mem_cons_of_mem a hx) y
          (List.mem_cons_of_mem a hy)⟩
    have hown2 : OwnsBuffers h2 l :=
      OwnsBuffers.of_block_eq hblk (fun y hy b ax hb hu hax =>
        buf_of_mem_eq (hRframe ax (hbufR y hy b ax hb hu hax))) hown0
    obtain ⟨h', L, hrun, hlog', hLnd, hL, hLnone, hLframe⟩ := ih h2 cur.pNext f hch2 hown2 hlf
    have hcongr : ∀ x, OwnedBy h2 l x ↔ OwnedBy h l x := OwnedBy.iff_of_block_eq hblk
    -- what this iteration released is not owned by the tail
    have hRL : ∀ x ∈ R, ¬ OwnedBy h l x := by
      intro x hxR hx
      rcases hx with hx | ⟨y, hy, b, hb, hu, hax⟩
      · exact hlR x hx hxR
      · exact hbufR y hy b x hb hu hax hxR
    have hsplit : ∀ x, OwnedBy h (a :: l) x ↔ x ∈ R ∨ OwnedBy h l x := by
      intro x
      rw [hR x]
      constructor
      · rintro (hx | ⟨y, hy, b, hb, hu, hax⟩)
        · rcases List.mem_cons.mp hx with e | e
          · exact Or.inl (Or.inl e)
          · exact Or.inr (Or.inl e)
        · rcases List.mem_cons.mp hy with e | e
          · subst e
            rw [hcur] at hb
            cases hb
            exact Or.inl (Or.inr ⟨hu, hax⟩)
          · exact Or.inr (Or.inr ⟨y, e, b, hb, hu, hax⟩)
      · rintro ((e | ⟨hu, hax⟩) | (hx | ⟨y, hy, b, hb, hu, hax⟩))
        · exact Or.inl (e ▸ List.mem_cons_self a l)
        · exact Or.inr ⟨a, List.mem_cons_self a l, cur, hcur, hu, hax⟩
        · exact Or.inl (List.mem_cons_of_mem a hx)
        · exact Or.inr ⟨y, List.mem_cons_of_mem a hy, b, hb, hu, hax⟩
    refine ⟨h', R ++ L, ?_, ?_, ?_, ?_, ?_, ?_⟩
    · simp only [Allocator_Destroy.loop, hcur, hfb, hfr]
      exact hrun
    · rw [hlog', hlog]
      simp
    · refine List.Nodup.append hRnd hLnd ?_
      intro x hxR hxL
      exact hRL x hxR ((hcongr x).mp ((hL x).mp hxL))
    · intro x
      rw [List.mem_append, hL x, hcongr x, hsplit x]
    · intro x hx
      rcases (hsplit x).mp hx with hxR | hxl
      · rw [hLframe x (fun hc => hRL x hxR ((hcongr x).mp hc))]
        exact hRnone x hxR
      · exact hLnone x ((hcongr x).mpr hxl)
    · intro x hx
      have hxR : x ∉ R := fun hc => hx ((hsplit x).mpr (Or.inl hc))
      have hxl : ¬ OwnedBy h l x := fun hc => hx ((hsplit x).mpr (Or.inr hc))
      rw [hLframe x (fun hc => hxl ((hcongr x).mp hc))]
      exact hRframe x hxR

/-- Every state reached by a tracked run satisfies the tracking invariant. -/
theorem Reach.inv {t0 t : Tracked} {l0 : List Nat} (h0 : TrackedInv t0 l0) (hr : Reach t0 t) :
    ∃ l, TrackedInv t l := by
  induction hr with
  | start => exact ⟨l0, h0⟩
  | alloc sys slot szSize _ e ih =>
    obtain ⟨l, hinv⟩ := ih
    exact hinv.alloc e
  | free p l' _ hc hp e ih =>
    obtain ⟨l, hinv⟩ := ih
    have hl : l' = l := IsChain.unique hc hinv.chain
    subst hl
    obtain ⟨t'', e', hinv'⟩ := hinv.free hp
    rw [e] at e'
    cases e'
    exact ⟨l', hinv'⟩
  | collect fuel l' _ hc hf e ih =>
    obtain ⟨l, hinv⟩ := ih
    have hl : l' = l := IsChain.unique hc hinv.chain
    subst hl
    obtain ⟨t'', e', hinv'⟩ := hinv.collect hf
    rw [e] at e'
    cases e'
    exact ⟨_, hinv'⟩

theorem TrackedInv.init (h0 : Heap) : TrackedInv ⟨h0, ⟨true, none⟩, []⟩ [] :=
  ⟨rfl, ⟨by simp, by simp⟩, fun x => by simp [OwnedBy]⟩

/-! ## Claims -/

/-- C1: for an allocator whose registry is the finite chain `l`, `Allocator_Collect`
returns (given fuel for the `length l + 1` loop tests), and afterwards the registry
traversed from `pHead` is exactly the sub-sequence of `l` of the blocks that had
`isUsed == true`, in their original order: `pHead` is its first element (absent
when no block was live), the last survivor has a terminal `pNext`, and every
survivor keeps all its fields except possibly `pNext`. -/
theorem collect_registry_is_live_subsequence (h : Heap) (self : Allocator) (l : List Nat)
    (fuel : Nat) (hreg : IsChain h self.pHead l) (hfuel : l.length < fuel) :
    ∃ h' self', Allocator_Collect fuel h self = some (h', self') ∧
      IsChain h' self'.pHead (l.filter (fun a => live h a)) ∧
      self'.pHead = (l.filter (fun a => live h a)).head? ∧
      (∀ a, (l.filter (fun a => live h a)).getLast? = some a →
        ∃ b, h'.block a = some b ∧ b.pNext = none) ∧
      (∀ a ∈ l.filter (fun a => live h a),
        ∃ b nx, h.block a = some b ∧ h'.block a = some { b with pNext := nx }) := by
  obtain ⟨h', self', hrun, _, hchain, _, hsw⟩ :=
    collect_loop_head l h self self.pHead fuel rfl hreg hfuel
  refine ⟨h', self', hrun, hchain, hchain.head_eq, fun a ha => hchain.last_terminal ha, ?_⟩
  intro a ha
  obtain ⟨hal, hlive⟩ := List.mem_filter.mp ha
  exact hsw.kept a hal hlive

/-- The heap written out as `p4Heap` is the one the calls of
`Test_Allocator_Collect` build: same records, same allocator, same log. -/
theorem p4Run_reaches_p4Heap :
    p4Run.map (fun r => (r.1.block 1, r.1.block 2, r.1.buf 10, r.1.buf 20, r.2, r.1.log)) =
      some (p4Heap.block 1, p4Heap.block 2, p4Heap.buf 10, p4Heap.buf 20, ⟨true, some 2⟩,
        p4Heap.log) :=
  rfl

/-- C1 at the scenario P4: with `b1` (address 1, dead) and `b2` (address 2, live)
in the registry `[2, 1]`, the sweep leaves `pHead == b2` and `b2.pNext == NULL`. -/
theorem collect_registry_is_live_subsequence_witness :
    IsChain p4Heap (some 2) [2, 1] ∧ [2, 1].length < 3 ∧
    ∃ h' self', Allocator_Collect 3 p4Heap ⟨true, some 2⟩ = some (h', self') ∧
      self'.pHead = some 2 ∧ IsChain h' self'.pHead [2] ∧
      ∃ b, h'.block 2 = some b ∧ b.pNext = none := by
  have hreg : IsChain p4Heap (some 2) [2, 1] :=
    ⟨rfl, ⟨2048, true, true, some 20, some 1⟩, rfl, rfl, ⟨1024, true, false, some 10, none⟩,
      rfl, rfl⟩
  obtain ⟨h', self', hrun, hchain, hhead, hlast, _⟩ :=
    collect_registry_is_live_subsequence p4Heap ⟨true, some 2⟩ [2, 1] 3 hreg (by decide)
  have hf : [2, 1].filter (fun a => live p4Heap a) = [2] := by decide
  rw [hf] at hchain hhead hlast
  exact ⟨hreg, by decide, h', self', hrun, hhead, hchain, hlast 2 rfl⟩

/-- C2: with an empty output slot, when the backing-memory request answers the
fresh address `p` and the block-record request the fresh address `q`,
`Allocator_AllocateBlock` returns `SUCCESS`; the slot and `pHead` are `q`; the
record at `q` has `szSize == size`, `isInited`, `isUsed`, `pAddr == p` and
`pNext` equal to the previous `pHead`; `p` holds `size` bytes; nothing else in
the heap changed, so a registry `l` becomes `q :: l`. -/
theorem allocateBlock_success (sys : Sys) (h : Heap) (self : Allocator) (szSize p q : Nat)
    (hm : sys.memAns = some p) (hr : sys.blockAns = some q)
    (hp : h.mem p = none) (hq : h.mem q = none) (hpq : p ≠ q) :
    ∃ h', Allocator_AllocateBlock sys h self none szSize =
        some (SUCCESS, h', { self with pHead := some q }, some q) ∧
      h'.block q = some ⟨szSize, true, true, some p, self.pHead⟩ ∧
      (∃ d, h'.buf p = some d ∧ d.length = szSize) ∧
      (∀ x, x ≠ p → x ≠ q → h'.mem x = h.mem x) ∧
      (∀ l, IsChain h self.pHead l →
        IsChain h' (some q) (q :: l) ∧ ∀ x ∈ l, h'.mem x = h.mem x) := by
  refine ⟨_, allocateBlock_success_eq sys h self szSize p q hm hr hp hq hpq, ?_, ?_, ?_, ?_⟩
  · simp [Heap.block]
  · exact ⟨(List.range szSize).map sys.junk, by simp [Heap.buf, hpq], by simp⟩
  · intro x hxp hxq
    simp [hxp, hxq]
  · intro l hl
    have hmem : ∀ x ∈ l, (if x = q then some (Obj.block ⟨szSize, true, true, some p, self.pHead⟩)
        else if x = p then some (Obj.bytes ((List.range szSize).map sys.junk))
        else h.mem x) = h.mem x := by
      intro x hx
      obtain ⟨t, ⟨_, b, hb, _⟩, _⟩ := IsChain.tail_of_mem hl hx
      have hxm := mem_of_block hb
      have hxp : x ≠ p := fun e => by rw [e, hp] at hxm; cases hxm
      have hxq : x ≠ q := fun e => by rw [e, hq] at hxm; cases hxm
      simp [hxp, hxq]
    exact ⟨⟨rfl, ⟨szSize, true, true, some p, self.pHead⟩, by simp [Heap.block],
      IsChain.congr hmem hl⟩, hmem⟩

/-- C2 at the scenario P2: `AllocateBlock(a, &b1, 100)` then `AllocateBlock(a, &b2, 200)`
on a fresh allocator both succeed, the traversal from `pHead` is `b2, b1` and both
blocks report `isUsed == true`. -/
theorem allocateBlock_success_witness :
    ∃ h1 h2 s1 s2,
      Allocator_AllocateBlock sysP4a Heap.empty ⟨true, none⟩ none 100 =
        some (SUCCESS, h1, s1, some 1) ∧
      Allocator_AllocateBlock sysP4b h1 s1 none 200 = some (SUCCESS, h2, s2, some 2) ∧
      IsChain h2 s2.pHead [2, 1] ∧ live h2 2 = true ∧ live h2 1 = true := by
  obtain ⟨h1, e1, hb1, _, hfr1, hch1⟩ :=
    allocateBlock_success sysP4a Heap.empty ⟨true, none⟩ 100 10 1 rfl rfl rfl rfl (by decide)
  have hm1 : h1.mem 1 = some (Obj.block ⟨100, true, true, some 10, none⟩) := mem_of_block hb1
  have h20 : h1.mem 20 = none := hfr1 20 (by decide) (by decide)
  have h2' : h1.mem 2 = none := hfr1 2 (by decide) (by decide)
  obtain ⟨h2, e2, hb2, _, hfr2, hch2⟩ :=
    allocateBlock_success sysP4b h1 ⟨true, some 1⟩ 200 20 2 rfl rfl h20 h2' (by decide)
  have hc := (hch2 [1] (hch1 [] rfl).1).1
  have hl1 : h2.block 1 = some ⟨100, true, true, some 10, none⟩ := by
    rw [block_of_mem_eq (hfr2 1 (by decide) (by decide))]; exact hb1
  exact ⟨h1, h2, _, _, e1, e2, hc, by simp [live, hb2], by simp [live, hl1]⟩

/-- C3: for a block with `isUsed == true` whose `pAddr` is its `szSize`-byte backing
region, and data of length `n <= szSize`, `Allocator_WriteToBlock` followed by
`Allocator_ReadFromBlock` returns the backing region `pAddr`, whose first `n`
bytes equal the data; and after a second write of `data2` of length
`m <= szSize` the read returns the same region, whose first `m` bytes equal
`data2`. -/
theorem write_read_roundtrip (h : Heap) (pb a : Nat) (b : MemoryBlock) (d data : List Nat)
    (n : Nat) (hb : h.block pb = some b) (hu : b.isUsed = true) (ha : b.pAddr = some a)
    (hd : h.buf a = some d) (hlen : d.length = b.szSize) (hdata : data.length = n)
    (hn : n ≤ b.szSize) :
    ∃ h' d', Allocator_WriteToBlock h pb data n = some h' ∧
      Allocator_ReadFromBlock h' pb = some (some a) ∧ h'.buf a = some d' ∧ d'.take n = data ∧
      ∀ (data2 : List Nat) (m : Nat), data2.length = m → m ≤ b.szSize →
        ∃ h'' d'', Allocator_WriteToBlock h' pb data2 m = some h'' ∧
          Allocator_ReadFromBlock h'' pb = some (some a) ∧ h''.buf a = some d'' ∧
          d''.take m = data2 := by
  obtain ⟨h', d', hw, hr, hd', ht, hb', hlen'⟩ := write_then_read data n hb hu ha hd hlen hdata hn
  refine ⟨h', d', hw, hr, hd', ht, ?_⟩
  intro data2 m hdata2 hm
  obtain ⟨h'', d'', hw2, hr2, hd2, ht2, _, _⟩ :=
    write_then_read data2 m hb' hu ha hd' hlen' hdata2 hm
  exact ⟨h'', d'', hw2, hr2, hd2, ht2⟩

/-- The heap written out as `wrHeap` is the one `Test_Allocator_WriteReadBlock`
builds with its allocation of 1024 bytes. -/
theorem allocate_reaches_wrHeap :
    (Allocator_AllocateBlock sysP4a Heap.empty ⟨true, none⟩ none 1024).map
        (fun r => (r.1, r.2.1.block 1, r.2.1.buf 10, r.2.1.log, r.2.2)) =
      some (SUCCESS, wrHeap.block 1, wrHeap.buf 10, wrHeap.log, ⟨true, some 1⟩, some 1) :=
  rfl

/-- C3 at the scenario P5: the 18 bytes of "Hello, Allocator!" with terminator are
written to a 1024-byte block and read back, then the 18 bytes of
"New data written!" with terminator. -/
theorem write_read_roundtrip_witness :
    ∃ h' d', Allocator_WriteToBlock wrHeap 1 helloBytes 18 = some h' ∧
      Allocator_ReadFromBlock h' 1 = some (some 10) ∧ h'.buf 10 = some d' ∧
      d'.take 18 = helloBytes ∧
      ∃ h'' d'', Allocator_WriteToBlock h' 1 newBytes 18 = some h'' ∧
        Allocator_ReadFromBlock h'' 1 = some (some 10) ∧ h''.buf 10 = some d'' ∧
        d''.take 18 = newBytes := by
  obtain ⟨h', d', hw, hr, hd, ht, hsecond⟩ :=
    write_read_roundtrip wrHeap 1 10 ⟨1024, true, true, some 10, none⟩
      ((List.range 1024).map (fun _ => 0)) helloBytes 18 rfl rfl rfl rfl
      (by simp only [List.length_map, List.length_range]) rfl
      (by decide)
  exact ⟨h', d', hw, hr, hd, ht, hsecond newBytes 18 rfl (by decide)⟩

/-- C4: `Allocator_FreeBlock` on `NULL`, or on a block with `isUsed == false`,
returns with the heap (every record, every buffer, the log of releases)
exactly as it was; hence a second `Allocator_FreeBlock` on the same handle
leaves the state reached by the first. -/
theorem freeBlock_idempotent (h : Heap) (pMemBlock : Option Nat) :
    (pMemBlock = none → Allocator_FreeBlock h pMemBlock = some h) ∧
    (∀ p b, pMemBlock = some p → h.block p = some b → b.isUsed = false →
      Allocator_FreeBlock h pMemBlock = some h) ∧
    (∀ h', Allocator_FreeBlock h pMemBlock = some h' →
      Allocator_FreeBlock h' pMemBlock = some h') := by
  refine ⟨?_, ?_, ?_⟩
  · intro e
    subst e
    rfl
  · intro p b e hb hu
    subst e
    exact freeBlock_dead hb hu
  · intro h' e
    cases pMemBlock with
    | none =>
      simp [Allocator_FreeBlock] at e
      subst e
      rfl
    | some p =>
      obtain ⟨b, hb, hu⟩ := freeBlock_result_dead e
      exact freeBlock_dead hb hu

/-- C4 on the heap of scenario P4: freeing `NULL` and freeing the dead `block1`
change nothing, and freeing the live `block2` twice is the same as once. -/
theorem freeBlock_idempotent_witness :
    Allocator_FreeBlock p4Heap none = some p4Heap ∧
    Allocator_FreeBlock p4Heap (some 1) = some p4Heap ∧
    ∃ h', Allocator_FreeBlock p4Heap (some 2) = some h' ∧
      Allocator_FreeBlock h' (some 2) = some h' :=
  ⟨(freeBlock_idempotent p4Heap none).1 rfl,
    (freeBlock_idempotent p4Heap (some 1)).2.1 1 ⟨1024, true, false, some 10, none⟩ rfl rfl rfl,
    _, freeBlock_live_eq (h := p4Heap) (p := 2) (a := 20)
        (b := ⟨2048, true, true, some 20, some 1⟩) rfl rfl rfl rfl (by decide),
    (freeBlock_idempotent p4Heap (some 2)).2.2 _
      (freeBlock_live_eq (h := p4Heap) (p := 2) (a := 20)
        (b := ⟨2048, true, true, some 20, some 1⟩) rfl rfl rfl rfl (by decide))⟩

/-- C5: for a block `p` of the registry `l` with `isUsed == true` whose `pAddr` is
an outstanding buffer `a`, `Allocator_FreeBlock` releases `a` (and only `a`),
sets `pAddr` to `NULL` and `isUsed` to false, keeps `szSize`, `isInited` and
`pNext`, leaves every other record and buffer as it was, and the registry from
the same `pHead` is still `l`, with `p` in it, now dead. -/
theorem freeBlock_live_frame (h : Heap) (self : Allocator) (l : List Nat) (p a : Nat)
    (b : MemoryBlock) (d : List Nat) (hreg : IsChain h self.pHead l) (hp : p ∈ l)
    (hb : h.block p = some b) (hu : b.isUsed = true) (ha : b.pAddr = some a)
    (hd : h.buf a = some d) :
    ∃ h', Allocator_FreeBlock h (some p) = some h' ∧
      h'.mem a = none ∧ h'.log = h.log ++ [Event.free a] ∧
      h'.block p = some { b with pAddr := none, isUsed := false } ∧
      (∀ x, x ≠ p → h'.block x = h.block x) ∧
      (∀ x, x ≠ p → x ≠ a → h'.mem x = h.mem x) ∧
      IsChain h' self.pHead l ∧ p ∈ l ∧ live h' p = false := by
  have hap : a ≠ p := buf_ne_block hd hb
  have hma : h.mem a = some (Obj.bytes d) := by
    unfold Heap.buf at hd
    split at hd
    · next d' hd' => simp at hd; rw [hd', hd]
    · simp at hd
  have hba : h.block a = none := by simp [Heap.block, hma]
  refine ⟨_, freeBlock_live_eq hb hu ha hma hap, by simp [hap], rfl, by simp [Heap.block], ?_, ?_, ?_,
    hp, by simp [live, Heap.block]⟩
  · intro x hxp
    by_cases hxa : x = a
    · subst hxa; simp [Heap.block, hxp, hma]
    · simp [Heap.block, hxp, hxa]
  · intro x hxp hxa
    simp [hxp, hxa]
  · refine IsChain.congr_next ?_ hreg
    intro x _ bx hbx
    by_cases hxp : x = p
    · subst hxp
      rw [hb] at hbx
      cases hbx
      exact ⟨{ b with pAddr := none, isUsed := false }, by simp [Heap.block], rfl⟩
    · have hxa : x ≠ a := fun e => by rw [e, hba] at hbx; cases hbx
      exact ⟨bx, by simpa [Heap.block, hxp, hxa] using hbx, rfl⟩

/-- C5 on the heap of scenario P4: freeing the live `block2` (address 2, buffer 20)
of the registry `[2, 1]`. -/
theorem freeBlock_live_frame_witness :
    ∃ h', Allocator_FreeBlock p4Heap (some 2) = some h' ∧
      h'.mem 20 = none ∧ h'.log = p4Heap.log ++ [Event.free 20] ∧
      h'.block 2 = some ⟨2048, true, false, none, some 1⟩ ∧
      h'.block 1 = p4Heap.block 1 ∧ h'.mem 10 = p4Heap.mem 10 ∧
      IsChain h' (some 2) [2, 1] := by
  obtain ⟨h', e, hm, hlog, hb, hblocks, hmem, hch, _, _⟩ :=
    freeBlock_live_frame p4Heap ⟨true, some 2⟩ [2, 1] 2 20 ⟨2048, true, true, some 20, some 1⟩
      ((List.range 2048).map (fun _ => 0))
      ⟨rfl, ⟨2048, true, true, some 20, some 1⟩, rfl, rfl,
        ⟨1024, true, false, some 10, none⟩, rfl, rfl⟩
      (by decide) rfl rfl rfl rfl
  exact ⟨h', e, hm, hlog, hb, hblocks 1 (by decide), hmem 10 (by decide) (by decide), hch⟩

/-- C6: when the output slot already references a block, `Allocator_AllocateBlock`
returns `ALREADY_ALLOCATED` whatever the system allocator would have answered;
the heap (records, buffers and the log of requests), the allocator and the
slot are exactly as before. -/
theorem allocateBlock_already_allocated (sys : Sys) (h : Heap) (self : Allocator)
    (s szSize : Nat) :
    Allocator_AllocateBlock sys h self (some s) szSize =
      some (ALREADY_ALLOCATED, h, self, some s) := by
  unfold Allocator_AllocateBlock
  have hslot : (some s : Option Nat) ≠ none := Option.some_ne_none s
  rw [if_pos hslot]

/-- C7: `Allocator_Init` returns `ALREADY_INITED` exactly when `isInited` is already
true, and then leaves the allocator (its `pHead` included) as it was; otherwise
it returns `SUCCESS` with `isInited == true` and `pHead == NULL`.  So two calls
on an uninitialized allocator return `SUCCESS` then `ALREADY_INITED`, with
`pHead` still `NULL`. -/
theorem init_spec (self : Allocator) :
    ((Allocator_Init self).1 = ALREADY_INITED ↔ self.isInited = true) ∧
    (self.isInited = true → Allocator_Init self = (ALREADY_INITED, self)) ∧
    (self.isInited = false → Allocator_Init self = (SUCCESS, ⟨true, none⟩)) ∧
    (self.isInited = false →
      Allocator_Init (Allocator_Init self).2 = (ALREADY_INITED, ⟨true, none⟩)) := by
  cases hi : self.isInited <;> simp [Allocator_Init, hi, SUCCESS, ALREADY_INITED]

/-- C7 on two allocators: an initialized one with a non-empty registry, and an
uninitialized one (with a stray `pHead`) on which `Allocator_Init` is called twice. -/
theorem init_spec_witness :
    Allocator_Init ⟨true, some 2⟩ = (ALREADY_INITED, ⟨true, some 2⟩) ∧
    Allocator_Init ⟨false, some 7⟩ = (SUCCESS, ⟨true, none⟩) ∧
    Allocator_Init (Allocator_Init ⟨false, some 7⟩).2 = (ALREADY_INITED, ⟨true, none⟩) :=
  ⟨(init_spec ⟨true, some 2⟩).2.1 rfl, (init_spec ⟨false, some 7⟩).2.2.1 rfl,
    (init_spec ⟨false, some 7⟩).2.2.2 rfl⟩

/-- C8: for a block with `isUsed == false`, or a length `n > szSize`,
`Allocator_WriteToBlock` returns the heap unchanged (so no byte and no field
differs and a following read sees the region as before); the heap changes only
when `isUsed == true` and `n <= szSize`; and then (the backing region being
`szSize` bytes at `pAddr`) the `n` bytes of the payload are all written, also
when `n == szSize`. -/
theorem writeToBlock_all_or_nothing (h : Heap) (pb : Nat) (b : MemoryBlock) (data : List Nat)
    (n : Nat) (hb : h.block pb = some b) :
    ((b.isUsed = false ∨ b.szSize < n) →
      Allocator_WriteToBlock h pb data n = some h) ∧
    (∀ h', Allocator_WriteToBlock h pb data n = some h' → h' ≠ h →
      b.isUsed = true ∧ n ≤ b.szSize) ∧
    (b.isUsed = true → n ≤ b.szSize → data.length = n →
      ∀ a d, b.pAddr = some a → h.buf a = some d → d.length = b.szSize →
        ∃ h', Allocator_WriteToBlock h pb data n = some h' ∧
          h'.buf a = some (data ++ d.drop n) ∧ h'.block pb = some b) := by
  have hskip : (b.isUsed = false ∨ b.szSize < n) →
      Allocator_WriteToBlock h pb data n = some h := by
    intro hg
    rcases hg with hg | hg <;> simp [Allocator_WriteToBlock, hb, hg]
  refine ⟨hskip, ?_, ?_⟩
  · intro h' e hne
    by_contra hcon
    have hg : b.isUsed = false ∨ b.szSize < n := by
      cases hu : b.isUsed with
      | false => exact Or.inl rfl
      | true => exact Or.inr (by simp [hu] at hcon; omega)
    rw [hskip hg] at e
    exact hne (Option.some.inj e).symm
  · intro hu hn hdata a d ha hd hlen
    obtain ⟨h', d', hw, _, hd', _, hb', _⟩ := write_then_read data n hb hu ha hd hlen hdata hn
    refine ⟨h', hw, ?_, hb'⟩
    rw [writeToBlock_eq data n hb hu ha hd hn (by omega) (by omega)] at hw
    cases hw
    rw [buf_store_same]
    subst hdata
    simp

/-- C8 on concrete heaps: a write to the dead `block1` of scenario P4 and a write
of 1025 bytes to a 1024-byte block change nothing; a write of exactly 1024
bytes to that block is accepted and replaces all 1024 bytes. -/
theorem writeToBlock_all_or_nothing_witness :
    Allocator_WriteToBlock p4Heap 1 helloBytes 18 = some p4Heap ∧
    Allocator_WriteToBlock wrHeap 1 (List.replicate 1025 7) 1025 = some wrHeap ∧
    ∃ h', Allocator_WriteToBlock wrHeap 1 (List.replicate 1024 7) 1024 = some h' ∧
      h'.buf 10 = some (List.replicate 1024 7 ++ ((List.range 1024).map (fun _ => 0)).drop 1024) :=
  ⟨(writeToBlock_all_or_nothing p4Heap 1 ⟨1024, true, false, some 10, none⟩ helloBytes 18 rfl).1
      (Or.inl rfl),
    (writeToBlock_all_or_nothing wrHeap 1 ⟨1024, true, true, some 10, none⟩
      (List.replicate 1025 7) 1025 rfl).1 (Or.inr (by decide)),
    (((writeToBlock_all_or_nothing wrHeap 1 ⟨1024, true, true, some 10, none⟩
      (List.replicate 1024 7) 1024 rfl).2.2 rfl (by decide) (List.length_replicate 1024 7) 10
      ((List.range 1024).map (fun _ => 0)) rfl rfl
      (by simp only [List.length_map, List.length_range])).imp fun _ hh => ⟨hh.1, hh.2.1⟩)⟩

/-- C9: `Allocator_ReadFromBlock` returns `NULL` when `isUsed == false` and the
block's own `pAddr` when `isUsed == true`; it is a pure read of the heap (it
has no heap result); and after `Allocator_FreeBlock` on the block it returns
`NULL`. -/
theorem readFromBlock_spec (h : Heap) (pb : Nat) (b : MemoryBlock) (hb : h.block pb = some b) :
    (b.isUsed = false → Allocator_ReadFromBlock h pb = some none) ∧
    (b.isUsed = true → Allocator_ReadFromBlock h pb = some b.pAddr) ∧
    (∀ h', Allocator_FreeBlock h (some pb) = some h' →
      Allocator_ReadFromBlock h' pb = some none) := by
  refine ⟨fun hu => by simp [Allocator_ReadFromBlock, hb, hu], readFromBlock_live hb, ?_⟩
  intro h' e
  obtain ⟨b', hb', hu'⟩ := freeBlock_result_dead e
  simp [Allocator_ReadFromBlock, hb', hu']

/-- C9 on the heap of scenario P4: the dead `block1` reads as `NULL`, the live
`block2` reads as its buffer 20, and as `NULL` once freed. -/
theorem readFromBlock_spec_witness :
    Allocator_ReadFromBlock p4Heap 1 = some none ∧
    Allocator_ReadFromBlock p4Heap 2 = some (some 20) ∧
    ∃ h', Allocator_FreeBlock p4Heap (some 2) = some h' ∧
      Allocator_ReadFromBlock h' 2 = some none :=
  ⟨(readFromBlock_spec p4Heap 1 ⟨1024, true, false, some 10, none⟩ rfl).1 rfl,
    (readFromBlock_spec p4Heap 2 ⟨2048, true, true, some 20, some 1⟩ rfl).2.1 rfl,
    _, freeBlock_live_eq (h := p4Heap) (p := 2) (a := 20)
        (b := ⟨2048, true, true, some 20, some 1⟩) rfl rfl rfl rfl (by decide),
    (readFromBlock_spec p4Heap 2 ⟨2048, true, true, some 20, some 1⟩ rfl).2.2 _
      (freeBlock_live_eq (h := p4Heap) (p := 2) (a := 20)
        (b := ⟨2048, true, true, some 20, some 1⟩) rfl rfl rfl rfl (by decide))⟩

/-- C10: with an empty output slot, when the request for backing memory fails,
`Allocator_AllocateBlock` returns `ALLOCATION_FAILURE`; the slot stays empty, the
allocator is unchanged, no address of the heap changes, the only call to the
system is the failed request (no block record is requested), and the registry
is the same chain. -/
theorem allocateBlock_allocation_failure (sys : Sys) (h : Heap) (self : Allocator)
    (szSize : Nat) (hm : sys.memAns = none) :
    ∃ h', Allocator_AllocateBlock sys h self none szSize =
        some (ALLOCATION_FAILURE, h', self, none) ∧
      h'.mem = h.mem ∧ h'.log = h.log ++ [Event.mallocMem szSize none] ∧
      ∀ l, IsChain h self.pHead l → IsChain h' self.pHead l := by
  refine ⟨{ h with log := h.log ++ [Event.mallocMem szSize none] }, ?_, rfl, rfl, ?_⟩
  · simp [Allocator_AllocateBlock, hm, Heap.malloc]
  · intro l hl
    exact IsChain.congr (h := h) (fun _ _ => rfl) hl

/-- C10 on the heap of scenario P4: a failed request for 4096 bytes. -/
theorem allocateBlock_allocation_failure_witness :
    ∃ h', Allocator_AllocateBlock ⟨none, some 3, fun _ => 0, ⟨0, false, false, none, none⟩⟩
        p4Heap ⟨true, some 2⟩ none 4096 = some (ALLOCATION_FAILURE, h', ⟨true, some 2⟩, none) ∧
      h'.mem = p4Heap.mem ∧ h'.log = p4Heap.log ++ [Event.mallocMem 4096 none] ∧
      h'.mem 3 = none :=
  (allocateBlock_allocation_failure ⟨none, some 3, fun _ => 0, ⟨0, false, false, none, none⟩⟩
    p4Heap ⟨true, some 2⟩ 4096 rfl).imp fun _ hh =>
      ⟨hh.1, hh.2.1, hh.2.2.1, by rw [hh.2.1]; rfl⟩

/-- C11: the block invariant "`pAddr` is present iff `isUsed`" over the registry is
preserved by `Allocator_Init`, by every outcome of `Allocator_AllocateBlock`
(whose new block satisfies it too), by `Allocator_FreeBlock` on a registry
block (whose `pAddr` is not itself a block record), by `Allocator_Collect` and
by `Allocator_WriteToBlock`. -/
theorem block_invariant_preserved (h : Heap) (self : Allocator) (l : List Nat)
    (hinv : RegistryInv h self.pHead l) :
    RegistryInv h (Allocator_Init self).2.pHead (if self.isInited = true then l else []) ∧
    (∀ sys slot szSize code h' self' slot',
      Allocator_AllocateBlock sys h self slot szSize = some (code, h', self', slot') →
      (code = SUCCESS → ∃ q b, slot' = some q ∧ h'.block q = some b ∧ BlockInv b ∧
        RegistryInv h' self'.pHead (q :: l)) ∧
      (code ≠ SUCCESS → RegistryInv h' self'.pHead l)) ∧
    (∀ p ∈ l, (∀ b a, h.block p = some b → b.pAddr = some a → h.block a = none) →
      ∀ h', Allocator_FreeBlock h (some p) = some h' → RegistryInv h' self.pHead l) ∧
    (∀ fuel, l.length < fuel → ∃ h' self', Allocator_Collect fuel h self = some (h', self') ∧
      RegistryInv h' self'.pHead (l.filter (fun a => live h a))) ∧
    (∀ pb data n h', Allocator_WriteToBlock h pb data n = some h' →
      RegistryInv h' self.pHead l) := by
  refine ⟨?_, ?_, ?_, ?_, ?_⟩
  · cases hi : self.isInited
    · simp [Allocator_Init, hi, RegistryInv, IsChain]
    · simpa [Allocator_Init, hi] using hinv
  · intro sys slot szSize code h' self' slot' e
    rcases allocateBlock_cases e with ⟨_, hr⟩ | ⟨_, _, hr⟩ | ⟨_, p, _, _, hp, hr⟩ |
      ⟨_, p, q, _, _, hp, hq, hpq, hr⟩
    · cases hr
      exact ⟨fun hc => by simp [ALREADY_ALLOCATED, SUCCESS] at hc, fun _ => hinv⟩
    · cases hr
      exact ⟨fun hc => by simp [ALLOCATION_FAILURE, SUCCESS] at hc,
        fun _ => RegistryInv.of_mem_eq (h := h) (fun _ _ => rfl) hinv⟩
    · cases hr
      refine ⟨fun hc => by simp [INITIALIZATION_FAILURE, SUCCESS] at hc,
        fun _ => RegistryInv.of_mem_eq (h := h) (fun x hx => ?_) hinv⟩
      have hxp : x ≠ p := hinv.1.mem_ne_of_fresh hx (block_none_of_mem_none hp)
      simp [hxp]
    · cases hr
      refine ⟨fun _ => ⟨q, ⟨szSize, true, true, some p, self.pHead⟩, rfl, by simp [Heap.block],
        by simp [BlockInv], ?_⟩, fun hc => absurd rfl hc⟩
      have hmem : ∀ x ∈ l, (if x = q then
            some (Obj.block ⟨szSize, true, true, some p, self.pHead⟩)
          else if x = p then some (Obj.bytes ((List.range szSize).map sys.junk))
          else h.mem x) = h.mem x := by
        intro x hx
        have hxp : x ≠ p := hinv.1.mem_ne_of_fresh hx (block_none_of_mem_none hp)
        have hxq : x ≠ q := hinv.1.mem_ne_of_fresh hx (block_none_of_mem_none hq)
        simp [hxp, hxq]
      have hrest := RegistryInv.of_mem_eq (h := h) (g :=
        { mem := fun x =>
            if x = q then some (Obj.block ⟨szSize, true, true, some p, self.pHead⟩)
            else if x = p then some (Obj.bytes ((List.range szSize).map sys.junk))
            else h.mem x,
          log := h.log ++ [Event.mallocMem szSize (some p), Event.mallocBlock (some q)] })
        hmem hinv
      refine ⟨⟨rfl, ⟨szSize, true, true, some p, self.pHead⟩, by simp [Heap.block], hrest.1⟩, ?_⟩
      intro a ha b hb
      rcases List.mem_cons.mp ha with e' | e'
      · subst e'
        simp [Heap.block] at hb
        subst hb
        simp [BlockInv]
      · exact hrest.2 a e' b hb
  · intro p hp htyped h' e
    obtain ⟨b, hb, hcase⟩ := freeBlock_cases e
    rcases hcase with ⟨_, hh⟩ | ⟨_, _, hh⟩ | ⟨_, a, o, ha, _, hap, hh⟩
    · subst hh
      exact hinv
    · subst hh
      exact RegistryInv.update hinv hb (block_store_same _ _ _) rfl (by simp [BlockInv])
        (fun x _ hxp => mem_store_ne h _ hxp)
    · subst hh
      have hba : h.block a = none := htyped b a hb ha
      refine RegistryInv.update (c := { b with pAddr := none, isUsed := false }) hinv hb
        (by simp [Heap.block]) rfl (by simp [BlockInv]) ?_
      intro x hx hxp
      have hxa : x ≠ a := hinv.1.mem_ne_of_fresh hx hba
      simp [hxp, hxa]
  · intro fuel hfuel
    obtain ⟨h', self', hrun, _, hchain, _, hsw⟩ :=
      collect_loop_head l h self self.pHead fuel rfl hinv.1 hfuel
    refine ⟨h', self', hrun, hchain, ?_⟩
    intro a ha b' hb'
    obtain ⟨hal, hlive⟩ := List.mem_filter.mp ha
    obtain ⟨b, nx, hb, hbn⟩ := hsw.kept a hal hlive
    rw [hbn] at hb'
    cases hb'
    exact hinv.2 a hal b hb
  · intro pb data n h' e
    rcases writeToBlock_cases e with hh | ⟨b, a, d, _, _, _, _, hd, _, _, hh⟩
    · subst hh
      exact hinv
    · subst hh
      refine RegistryInv.of_mem_eq (fun x hx => ?_) hinv
      exact mem_store_ne h _ (hinv.1.mem_ne_of_fresh hx (block_none_of_buf hd))

/-- The heap written out as `apiHeap` is reached from the empty heap by the two
allocations of scenario P4 followed by `Allocator_FreeBlock(block1)`. -/
theorem allocations_and_free_reach_apiHeap :
    (do
      let (_, h, self, _) ← Allocator_AllocateBlock sysP4a Heap.empty ⟨true, none⟩ none 1024
      let (_, h, self, _) ← Allocator_AllocateBlock sysP4b h self none 2048
      let h ← Allocator_FreeBlock h (some 1)
      some (h.mem 1, h.mem 2, h.mem 10, h.buf 20, h.log, self)) =
      some (apiHeap.mem 1, apiHeap.mem 2, apiHeap.mem 10, apiHeap.buf 20, apiHeap.log,
        ⟨true, some 2⟩) :=
  rfl

/-- C11 on the heap `apiHeap` with registry `[2, 1]`: the invariant holds there, and
still holds after a sweep (registry `[2]`) and after freeing `block2`. -/
theorem block_invariant_preserved_witness :
    RegistryInv apiHeap (some 2) [2, 1] ∧
    (∃ h' self', Allocator_Collect 3 apiHeap ⟨true, some 2⟩ = some (h', self') ∧
      RegistryInv h' self'.pHead [2]) ∧
    (∃ h', Allocator_FreeBlock apiHeap (some 2) = some h' ∧ RegistryInv h' (some 2) [2, 1]) := by
  have hinv : RegistryInv apiHeap (some 2) [2, 1] := by
    refine ⟨⟨rfl, ⟨2048, true, true, some 20, some 1⟩, rfl, rfl,
      ⟨1024, true, false, none, none⟩, rfl, rfl⟩, ?_⟩
    intro a ha b hb
    simp at ha
    rcases ha with rfl | rfl
    · have hb2 : apiHeap.block 2 = some ⟨2048, true, true, some 20, some 1⟩ := rfl
      rw [hb2] at hb
      cases hb
      rfl
    · have hb1 : apiHeap.block 1 = some ⟨1024, true, false, none, none⟩ := rfl
      rw [hb1] at hb
      cases hb
      rfl
  have hall := block_invariant_preserved apiHeap ⟨true, some 2⟩ [2, 1] hinv
  refine ⟨hinv, ?_, ?_⟩
  · obtain ⟨h', self', hrun, hr⟩ := hall.2.2.2.1 3 (by decide)
    have hf : [2, 1].filter (fun a => live apiHeap a) = [2] := by decide
    rw [hf] at hr
    exact ⟨h', self', hrun, hr⟩
  · have hb2 : apiHeap.block 2 = some ⟨2048, true, true, some 20, some 1⟩ := rfl
    have e := freeBlock_live_eq (h := apiHeap) (p := 2) (a := 20) hb2 rfl rfl rfl (by decide)
    refine ⟨_, e, hall.2.2.1 2 (by decide) ?_ _ e⟩
    intro b a hb ha
    rw [hb2] at hb
    cases hb
    cases ha
    rfl

/-- C13: evaluation of `Allocator_Collect` on the heap of scenario P4 (`b1` at
address 1 marked dead by direct assignment, still holding its buffer at
address 10).  The sweep leaves `pHead == b2` and releases the record of `b1`,
but the only release it performs is `free(b1)`: the backing buffer of `b1` is
still outstanding afterwards. -/
theorem collect_p4_leaves_buffer_outstanding :
    (Allocator_Collect 3 p4Heap ⟨true, some 2⟩).map
        (fun r => (r.2.pHead, r.1.mem 1, (r.1.buf 10).isSome, r.1.log.drop p4Heap.log.length)) =
      some (some 2, none, true, [Event.free 1]) := by
  decide

/-- C14: for an allocator whose registry is the finite chain `l`, `Allocator_Collect`
returns, the registry it leaves is again a finite chain, and every record
reachable from `pHead` in it has `isUsed == true`. -/
theorem collect_leaves_only_live (h : Heap) (self : Allocator) (l : List Nat) (fuel : Nat)
    (hreg : IsChain h self.pHead l) (hfuel : l.length < fuel) :
    ∃ h' self', Allocator_Collect fuel h self = some (h', self') ∧
      (∃ l', IsChain h' self'.pHead l') ∧
      ∀ l', IsChain h' self'.pHead l' →
        ∀ a ∈ l', ∃ b, h'.block a = some b ∧ b.isUsed = true := by
  obtain ⟨h', self', hrun, _, hchain, _, hsw⟩ :=
    collect_loop_head l h self self.pHead fuel rfl hreg hfuel
  refine ⟨h', self', hrun, ⟨_, hchain⟩, ?_⟩
  intro l' hl' a ha
  rw [IsChain.unique hl' hchain] at ha
  have hlive := collect_survivors_live hsw a ha
  obtain ⟨b, hb⟩ := hchain.block_of_mem ha
  exact ⟨b, hb, by simpa [live, hb] using hlive⟩

/-- C14 on `sweepHeap`: dead records at the head, adjacent in the middle and at the
tail are all removed; the registry left is `[5, 2]`, both live. -/
theorem collect_leaves_only_live_witness :
    IsChain sweepHeap (some 6) [6, 5, 4, 3, 2, 1] ∧
    ∃ h' self', Allocator_Collect 7 sweepHeap ⟨true, some 6⟩ = some (h', self') ∧
      IsChain h' self'.pHead [5, 2] ∧
      ∀ a ∈ [5, 2], ∃ b, h'.block a = some b ∧ b.isUsed = true := by
  have hreg : IsChain sweepHeap (some 6) [6, 5, 4, 3, 2, 1] :=
    ⟨rfl, ⟨4, true, false, none, some 5⟩, rfl, rfl, ⟨4, true, true, some 15, some 4⟩, rfl, rfl,
      ⟨4, true, false, none, some 3⟩, rfl, rfl, ⟨4, true, false, none, some 2⟩, rfl, rfl,
      ⟨4, true, true, some 12, some 1⟩, rfl, rfl, ⟨4, true, false, none, none⟩, rfl, rfl⟩
  obtain ⟨h', self', hrun, _, hall⟩ :=
    collect_leaves_only_live sweepHeap ⟨true, some 6⟩ [6, 5, 4, 3, 2, 1] 7 hreg (by decide)
  obtain ⟨h2, self2, hrun2, _, hchain, _, _⟩ :=
    collect_loop_head [6, 5, 4, 3, 2, 1] sweepHeap ⟨true, some 6⟩ (some 6) 7 rfl hreg (by decide)
  change Allocator_Collect 7 sweepHeap ⟨true, some 6⟩ = some (h2, self2) at hrun2
  rw [hrun] at hrun2
  cases hrun2
  have hf : [6, 5, 4, 3, 2, 1].filter (fun a => live sweepHeap a) = [5, 2] := by decide
  rw [hf] at hchain
  exact ⟨hreg, h', self', hrun, hchain, hall [5, 2] hchain⟩

/-- C15: with an empty slot, when the backing-memory request answers the fresh
address `p` and the block-record request then fails, `Allocator_AllocateBlock`
returns `INITIALIZATION_FAILURE`; the slot is `NULL`; the allocator, every
other address and the registry are unchanged; the buffer at `p` is outstanding
and no release was logged; and (no registry block holding a dangling `pAddr`
before the call) no block of the registry references `p`: it is leaked. -/
theorem allocateBlock_record_failure_leaks (sys : Sys) (h : Heap) (self : Allocator)
    (l : List Nat) (szSize p : Nat) (hm : sys.memAns = some p) (hr : sys.blockAns = none)
    (hp : h.mem p = none) (hreg : IsChain h self.pHead l)
    (hback : ∀ a ∈ l, ∀ b, h.block a = some b → ∀ x, b.pAddr = some x → h.mem x ≠ none) :
    ∃ h', Allocator_AllocateBlock sys h self none szSize =
        some (INITIALIZATION_FAILURE, h', self, none) ∧
      (∃ d, h'.buf p = some d ∧ d.length = szSize) ∧
      (∀ x, x ≠ p → h'.mem x = h.mem x) ∧
      h'.log = h.log ++ [Event.mallocMem szSize (some p), Event.mallocBlock none] ∧
      IsChain h' self.pHead l ∧
      ∀ a ∈ l, ∀ b, h'.block a = some b → b.pAddr ≠ some p := by
  have hfresh : ∀ x ∈ l, x ≠ p := fun x hx =>
    hreg.mem_ne_of_fresh hx (block_none_of_mem_none hp)
  refine ⟨_, allocateBlock_init_failure_eq sys h self szSize p hm hr hp,
    ⟨(List.range szSize).map sys.junk, by simp [Heap.buf], by simp⟩, ?_, rfl, ?_, ?_⟩
  · intro x hx
    simp [hx]
  · exact IsChain.congr (h := h) (fun x hx => by simp [hfresh x hx]) hreg
  · intro a ha b hb hpa
    have hb' : h.block a = some b := by
      simpa [Heap.block, hfresh a ha] using hb
    exact hback a ha b hb' p hpa hp

/-- C15 on the heap `apiHeap`: the request for 64 bytes is answered with address 30,
the request for the record fails; buffer 30 stays outstanding and unreferenced. -/
theorem allocateBlock_record_failure_leaks_witness :
    ∃ h', Allocator_AllocateBlock ⟨some 30, none, fun _ => 0, ⟨0, false, false, none, none⟩⟩
        apiHeap ⟨true, some 2⟩ none 64 =
        some (INITIALIZATION_FAILURE, h', ⟨true, some 2⟩, none) ∧
      (∃ d, h'.buf 30 = some d ∧ d.length = 64) ∧
      h'.log = apiHeap.log ++ [Event.mallocMem 64 (some 30), Event.mallocBlock none] ∧
      IsChain h' (some 2) [2, 1] ∧
      ∀ a ∈ [2, 1], ∀ b, h'.block a = some b → b.pAddr ≠ some 30 := by
  have hb2 : apiHeap.block 2 = some ⟨2048, true, true, some 20, some 1⟩ := rfl
  have hb1 : apiHeap.block 1 = some ⟨1024, true, false, none, none⟩ := rfl
  obtain ⟨h', e, hbuf, _, hlog, hch, href⟩ :=
    allocateBlock_record_failure_leaks
      ⟨some 30, none, fun _ => 0, ⟨0, false, false, none, none⟩⟩ apiHeap ⟨true, some 2⟩ [2, 1]
      64 30 rfl rfl rfl
      ⟨rfl, ⟨2048, true, true, some 20, some 1⟩, rfl, rfl, ⟨1024, true, false, none, none⟩,
        rfl, rfl⟩
      (by
        intro a ha b hb x hx
        simp at ha
        rcases ha with rfl | rfl
        · rw [hb2] at hb
          cases hb
          cases hx
          decide
        · rw [hb1] at hb
          cases hb
          cases hx)
  exact ⟨h', e, hbuf, hlog, hch, href⟩

/-- C18: a second `Allocator_Collect` run right after a first returns the very same
heap (records, buffers, log of releases) and allocator; and on a registry whose
records are all live, in particular an empty one, `Allocator_Collect` is the
identity. -/
theorem collect_idempotent (h : Heap) (self : Allocator) (l : List Nat) (fuel : Nat)
    (hreg : IsChain h self.pHead l) (hfuel : l.length < fuel) :
    (∃ h' self', Allocator_Collect fuel h self = some (h', self') ∧
      Allocator_Collect fuel h' self' = some (h', self')) ∧
    ((∀ a ∈ l, live h a = true) → Allocator_Collect fuel h self = some (h, self)) ∧
    (l = [] → Allocator_Collect fuel h self = some (h, self)) := by
  have hid : (∀ a ∈ l, live h a = true) → Allocator_Collect fuel h self = some (h, self) :=
    fun hl => collect_loop_all_live l h self self.pHead none fuel hreg hl hfuel
  refine ⟨?_, hid, fun hl => hid (by simp [hl])⟩
  obtain ⟨h', self', hrun, _, hchain, _, hsw⟩ :=
    collect_loop_head l h self self.pHead fuel rfl hreg hfuel
  refine ⟨h', self', hrun, ?_⟩
  exact collect_loop_all_live _ h' self' self'.pHead none fuel hchain
    (collect_survivors_live hsw)
    (lt_of_le_of_lt (List.length_filter_le _ _) hfuel)

/-- C18 on `sweepHeap` (registry `[6, 5, 4, 3, 2, 1]`, four dead records) and on the
all-live registry `[1]` of `wrHeap`. -/
theorem collect_idempotent_witness :
    (∃ h' self', Allocator_Collect 7 sweepHeap ⟨true, some 6⟩ = some (h', self') ∧
      Allocator_Collect 7 h' self' = some (h', self')) ∧
    Allocator_Collect 2 wrHeap ⟨true, some 1⟩ = some (wrHeap, ⟨true, some 1⟩) :=
  ⟨(collect_idempotent sweepHeap ⟨true, some 6⟩ [6, 5, 4, 3, 2, 1] 7
      ⟨rfl, ⟨4, true, false, none, some 5⟩, rfl, rfl, ⟨4, true, true, some 15, some 4⟩, rfl,
        rfl, ⟨4, true, false, none, some 3⟩, rfl, rfl, ⟨4, true, false, none, some 2⟩, rfl,
        rfl, ⟨4, true, true, some 12, some 1⟩, rfl, rfl, ⟨4, true, false, none, none⟩, rfl,
        rfl⟩ (by decide)).1,
    (collect_idempotent wrHeap ⟨true, some 1⟩ [1] 2
      ⟨rfl, ⟨1024, true, true, some 10, none⟩, rfl, rfl⟩ (by decide)).2.1 (by decide)⟩

/-- C19: for a live block whose `pAddr` is its `szSize`-byte region and a payload of
length `n <= szSize`, `Allocator_WriteToBlock` makes the first `n` bytes of the
region equal to the payload and keeps every byte from offset `n` on; the
region keeps its length, the block record (all five fields) and every other
address are unchanged, and nothing is requested or released. -/
theorem writeToBlock_changes_prefix_only (h : Heap) (pb a : Nat) (b : MemoryBlock)
    (d data : List Nat) (n : Nat) (hb : h.block pb = some b) (hu : b.isUsed = true)
    (ha : b.pAddr = some a) (hd : h.buf a = some d) (hlen : d.length = b.szSize)
    (hdata : data.length = n) (hn : n ≤ b.szSize) :
    ∃ h' d', Allocator_WriteToBlock h pb data n = some h' ∧ h'.buf a = some d' ∧
      d'.take n = data ∧ d'.drop n = d.drop n ∧ d'.length = d.length ∧
      h'.block pb = some b ∧ (∀ x, x ≠ a → h'.mem x = h.mem x) ∧ h'.log = h.log := by
  have hap : a ≠ pb := buf_ne_block hd hb
  refine ⟨_, data.take n ++ d.drop n,
    writeToBlock_eq data n hb hu ha hd hn (by omega) (by omega), buf_store_same _ _ _,
    ?_, ?_, ?_, ?_, fun x hx => mem_store_ne h _ hx, rfl⟩
  · subst hdata; simp
  · subst hdata; simp
  · subst hdata; simp; omega
  · rw [block_of_mem_eq (mem_store_ne h _ hap.symm)]; exact hb

/-- The heap written out as `helloHeap` is `wrHeap` after the first write of
scenario P5. -/
theorem write_hello_reaches_helloHeap :
    Allocator_WriteToBlock wrHeap 1 helloBytes 18 = some helloHeap :=
  writeToBlock_eq (h := wrHeap) (a := 10) (b := ⟨1024, true, true, some 10, none⟩) helloBytes 18
    rfl rfl rfl rfl (by decide)
    (by simp only [List.length_map, List.length_range]; decide) (by decide)

/-- C19 on `helloHeap`: a second, shorter write of the three bytes of "New" leaves
bytes 3..17 of the first write ("lo, Allocator!" and the terminator) readable. -/
theorem writeToBlock_changes_prefix_only_witness :
    ∃ h' d', Allocator_WriteToBlock helloHeap 1 [78, 101, 119] 3 = some h' ∧
      h'.buf 10 = some d' ∧ d'.take 3 = [78, 101, 119] ∧
      (d'.drop 3).take 15 = helloBytes.drop 3 ∧
      h'.block 1 = some ⟨1024, true, true, some 10, none⟩ := by
  obtain ⟨h', d', hw, hbuf, htake, hdrop, _, hblock, _, _⟩ :=
    writeToBlock_changes_prefix_only helloHeap 1 10 ⟨1024, true, true, some 10, none⟩
      (helloBytes ++ ((List.range 1024).map (fun _ => 0)).drop 18) [78, 101, 119] 3
      rfl rfl rfl rfl
      (by simp only [List.length_append, List.length_drop, List.length_map, List.length_range]
          rfl)
      rfl (by decide)
  refine ⟨h', d', hw, hbuf, htake, ?_, hblock⟩
  rw [hdrop]
  decide

/-- C16: in a registry `l` whose records are all live, for a record `p` whose
backing buffer `a` is outstanding and is the `pAddr` of no other record,
`Allocator_FreeBlock(p)` followed by `Allocator_Collect` leaves the registry
`l.erase p`: one record fewer, `p` gone, every other record still present in
the same relative order with only `pNext` possibly changed, and its backing
region unchanged. -/
theorem free_then_collect_removes_exactly (h : Heap) (self : Allocator) (l : List Nat)
    (p a : Nat) (b : MemoryBlock) (d : List Nat) (fuel : Nat)
    (hreg : IsChain h self.pHead l) (hall : ∀ x ∈ l, live h x = true) (hp : p ∈ l)
    (hb : h.block p = some b) (ha : b.pAddr = some a) (hd : h.buf a = some d)
    (hexcl : ∀ x ∈ l, x ≠ p → ∀ bx, h.block x = some bx → bx.pAddr ≠ some a)
    (hfuel : l.length < fuel) :
    ∃ h1 h2 self2, Allocator_FreeBlock h (some p) = some h1 ∧
      Allocator_Collect fuel h1 self = some (h2, self2) ∧
      IsChain h2 self2.pHead (l.erase p) ∧
      (l.erase p).length + 1 = l.length ∧ p ∉ l.erase p ∧ (l.erase p).Sublist l ∧
      h2.mem p = none ∧ h2.mem a = none ∧
      ∀ x ∈ l, x ≠ p → x ∈ l.erase p ∧
        ∃ bx nx, h.block x = some bx ∧ h2.block x = some { bx with pNext := nx } ∧
          ∀ ax, bx.pAddr = some ax → h2.buf ax = h.buf ax := by
  have hu : b.isUsed = true := by simpa [live, hb] using hall p hp
  have hap : a ≠ p := buf_ne_block hd hb
  have hba : h.block a = none := block_none_of_buf hd
  have hal : a ∉ l := fun hmem => absurd rfl (hreg.mem_ne_of_fresh hmem hba)
  have hnd : l.Nodup := hreg.nodup
  have hma : h.mem a = some (Obj.bytes d) := by
    unfold Heap.buf at hd
    split at hd
    · next d' hd' => simp at hd; rw [hd', hd]
    · simp at hd
  obtain ⟨h1, hfree⟩ : ∃ h1, Allocator_FreeBlock h (some p) = some h1 :=
    ⟨_, freeBlock_live_eq hb hu ha hma hap⟩
  obtain ⟨b0, hb0, hb1, hfr⟩ := freeBlock_frame hfree
  rw [hb] at hb0
  cases hb0
  simp only [hu, if_true] at hb1
  have hmem1 : ∀ x, x ≠ p → x ≠ a → h1.mem x = h.mem x := fun x hxp hxa =>
    hfr x hxp (fun _ hpa => hxa (by rw [ha] at hpa; exact (Option.some.inj hpa).symm))
  have hma1 : h1.mem a = none := by
    rw [freeBlock_live_eq hb hu ha hma hap] at hfree
    cases hfree
    simp [hap]
  have hch1 : IsChain h1 self.pHead l :=
    IsChain.of_freeBlock hfree (fun b' a' hb' ha' => by
      rw [hb] at hb'
      cases hb'
      rw [ha] at ha'
      cases ha'
      exact hba) hreg
  have hlive1 : ∀ x ∈ l, live h1 x = decide (x ≠ p) := by
    intro x hx
    by_cases hxp : x = p
    · subst hxp
      simp [live, hb1]
    · have hxa : x ≠ a := fun e => hal (e ▸ hx)
      rw [live_of_mem_eq (hmem1 x hxp hxa), hall x hx]
      simp [hxp]
  have hfilter : l.filter (fun x => live h1 x) = l.erase p := by
    rw [hnd.erase_eq_filter]
    refine List.filter_congr (fun x hx => ?_)
    rw [hlive1 x hx]
    by_cases hxp : x = p <;> simp [hxp]
  obtain ⟨h2, self2, hrun, _, hchain, hout, hsw⟩ :=
    collect_loop_head l h1 self self.pHead fuel rfl hch1 hfuel
  rw [hfilter] at hchain
  refine ⟨h1, h2, self2, hfree, hrun, hchain, ?_, ?_, List.erase_sublist p l, ?_, ?_, ?_⟩
  · rw [List.length_erase_of_mem hp]
    have : 0 < l.length := List.length_pos_of_mem hp
    omega
  · exact fun hmem => (hnd.mem_erase_iff.mp hmem).1 rfl
  · exact hsw.gone p hp (by rw [hlive1 p hp]; simp)
  · rw [hout a hal]
    exact hma1
  · intro x hx hxp
    have hxa : x ≠ a := fun e => hal (e ▸ hx)
    refine ⟨(List.mem_erase_of_ne hxp).mpr hx, ?_⟩
    obtain ⟨bx, nx, hbx1, hbx2⟩ := hsw.kept x hx (by rw [hlive1 x hx]; simp [hxp])
    have hbx : h.block x = some bx := by
      rw [← block_of_mem_eq (hmem1 x hxp hxa)]; exact hbx1
    refine ⟨bx, nx, hbx, hbx2, ?_⟩
    intro ax hax
    have haxa : ax ≠ a := fun e => hexcl x hx hxp bx hbx (by rw [hax, e])
    by_cases haxl : ax ∈ l
    · obtain ⟨bax, hbax⟩ := hreg.block_of_mem haxl
      have h1' : h.buf ax = none := by simp [Heap.buf, mem_of_block hbax]
      rw [h1']
      by_cases hlx : live h1 ax = true
      · obtain ⟨b', n', _, hb2'⟩ := hsw.kept ax haxl hlx
        simp [Heap.buf, mem_of_block hb2']
      · simp [Heap.buf, hsw.gone ax haxl (by simpa using hlx)]
    · have haxp : ax ≠ p := fun e => haxl (e ▸ hp)
      simp [Heap.buf, hout ax haxl, hmem1 ax haxp haxa]

/-- The heap written out as `liveHeap` is reached from the empty heap by the two
allocations of `Test_Allocator_Collect`. -/
theorem allocations_reach_liveHeap :
    (do
      let (_, h, self, _) ← Allocator_AllocateBlock sysP4a Heap.empty ⟨true, none⟩ none 1024
      let (_, h, self, _) ← Allocator_AllocateBlock sysP4b h self none 2048
      some (h.mem 1, h.mem 2, h.buf 10, h.buf 20, h.log, self)) =
      some (liveHeap.mem 1, liveHeap.mem 2, liveHeap.buf 10, liveHeap.buf 20, liveHeap.log,
        ⟨true, some 2⟩) :=
  rfl

/-- C16 on `liveHeap` (registry `[2, 1]`, both live): freeing `block1` and sweeping
leaves the registry `[2]`; record 1 and buffer 10 are released, `block2` keeps
its fields and its buffer 20. -/
theorem free_then_collect_removes_exactly_witness :
    ∃ h1 h2 self2, Allocator_FreeBlock liveHeap (some 1) = some h1 ∧
      Allocator_Collect 3 h1 ⟨true, some 2⟩ = some (h2, self2) ∧
      IsChain h2 self2.pHead [2] ∧ h2.mem 1 = none ∧ h2.mem 10 = none ∧
      (∃ nx, h2.block 2 = some ⟨2048, true, true, some 20, nx⟩) ∧
      h2.buf 20 = liveHeap.buf 20 := by
  have hb2 : liveHeap.block 2 = some ⟨2048, true, true, some 20, some 1⟩ := rfl
  obtain ⟨h1, h2, self2, hfree, hrun, hchain, _, _, _, hp, ha, hothers⟩ :=
    free_then_collect_removes_exactly liveHeap ⟨true, some 2⟩ [2, 1] 1 10
      ⟨1024, true, true, some 10, none⟩ ((List.range 1024).map (fun _ => 0)) 3
      ⟨rfl, ⟨2048, true, true, some 20, some 1⟩, rfl, rfl, ⟨1024, true, true, some 10, none⟩,
        rfl, rfl⟩
      (by decide) (by decide) rfl rfl rfl
      (by
        intro x hx hx1 bx hbx
        simp at hx
        rcases hx with rfl | rfl
        · rw [hb2] at hbx
          cases hbx
          decide
        · exact absurd rfl hx1)
      (by decide)
  obtain ⟨_, bx, nx, hbx, hbx2, hbuf⟩ := hothers 2 (by decide) (by decide)
  rw [hb2] at hbx
  cases hbx
  exact ⟨h1, h2, self2, hfree, hrun, hchain, hp, ha, ⟨nx, hbx2⟩, hbuf 20 rfl⟩

/-- C17: a live block `pb` of the registry whose region `a` holds the bytes `d` is
untouched by operations on anything else: after any outcome of
`Allocator_AllocateBlock`, after `Allocator_FreeBlock` or
`Allocator_WriteToBlock` on a different block (one that has its own backing
memory, not `a` and not a block record), and after `Allocator_Collect`, `pb` is
still in the registry with `isUsed == true` and `Allocator_ReadFromBlock`
returns `a` with the contents `d`. -/
theorem live_block_isolated (h : Heap) (self : Allocator) (l : List Nat) (pb a : Nat)
    (b : MemoryBlock) (d : List Nat) (hreg : IsChain h self.pHead l) (hpb : pb ∈ l)
    (hb : h.block pb = some b) (hu : b.isUsed = true) (ha : b.pAddr = some a)
    (hd : h.buf a = some d) :
    (∀ sys slot szSize code h' self' slot',
      Allocator_AllocateBlock sys h self slot szSize = some (code, h', self', slot') →
      Intact h' self' pb a d) ∧
    (∀ p', p' ≠ pb →
      (∀ b' x, h.block p' = some b' → b'.pAddr = some x → x ≠ a ∧ h.block x = none) →
      ∀ h', Allocator_FreeBlock h (some p') = some h' → Intact h' self pb a d) ∧
    (∀ p' data n, p' ≠ pb → (∀ b', h.block p' = some b' → b'.pAddr ≠ some a) →
      ∀ h', Allocator_WriteToBlock h p' data n = some h' → Intact h' self pb a d) ∧
    (∀ fuel, l.length < fuel →
      ∃ h' self', Allocator_Collect fuel h self = some (h', self') ∧ Intact h' self' pb a d) := by
  have hma : h.mem a ≠ none := mem_ne_none_of_buf hd
  have hmpb : h.mem pb ≠ none := by rw [mem_of_block hb]; simp
  have hal : a ∉ l := fun hmem =>
    absurd rfl (hreg.mem_ne_of_fresh hmem (block_none_of_buf hd))
  have hcongr : ∀ (h' : Heap) (self' : Allocator), self'.pHead = self.pHead →
      (∀ x, h.mem x ≠ none → h'.mem x = h.mem x) → Intact h' self' pb a d := by
    intro h' self' hs hm
    refine Intact.intro (l := l) ?_ hpb (by rw [block_of_mem_eq (hm pb hmpb)]; exact hb) hu ha
      (by rw [buf_of_mem_eq (hm a hma)]; exact hd)
    rw [hs]
    exact IsChain.congr (fun x hx => hm x (by
      obtain ⟨bx, hbx⟩ := hreg.block_of_mem hx
      rw [mem_of_block hbx]; simp)) hreg
  refine ⟨?_, ?_, ?_, ?_⟩
  · intro sys slot szSize code h' self' slot' e
    rcases allocateBlock_cases e with ⟨_, hr⟩ | ⟨_, _, hr⟩ | ⟨_, p, _, _, hp, hr⟩ |
      ⟨_, p, q, _, _, hp, hq, hpq, hr⟩
    · cases hr
      exact hcongr h self rfl (fun _ _ => rfl)
    · cases hr
      exact hcongr _ self rfl (fun _ _ => rfl)
    · cases hr
      refine hcongr _ self rfl (fun x hx => ?_)
      have hxp : x ≠ p := fun e' => hx (e' ▸ hp)
      simp [hxp]
    · cases hr
      have hm : ∀ x, h.mem x ≠ none → (if x = q then
            some (Obj.block ⟨szSize, true, true, some p, self.pHead⟩)
          else if x = p then some (Obj.bytes ((List.range szSize).map sys.junk))
          else h.mem x) = h.mem x := by
        intro x hx
        have hxp : x ≠ p := fun e' => hx (e' ▸ hp)
        have hxq : x ≠ q := fun e' => hx (e' ▸ hq)
        simp [hxp, hxq]
      have hold := hcongr
        { mem := fun x =>
            if x = q then some (Obj.block ⟨szSize, true, true, some p, self.pHead⟩)
            else if x = p then some (Obj.bytes ((List.range szSize).map sys.junk))
            else h.mem x,
          log := h.log ++ [Event.mallocMem szSize (some p), Event.mallocBlock (some q)] }
        self rfl hm
      obtain ⟨⟨l', hl', hpb'⟩, hrest⟩ := hold
      exact ⟨⟨q :: l', ⟨rfl, ⟨szSize, true, true, some p, self.pHead⟩, by simp [Heap.block], hl'⟩,
        List.mem_cons_of_mem q hpb'⟩, hrest⟩
  · intro p' hne hown h' e
    obtain ⟨b0, hb0, _, hfr⟩ := freeBlock_frame e
    have hch : IsChain h' self.pHead l :=
      IsChain.of_freeBlock e (fun b' x hb' hx => (hown b' x hb' hx).2) hreg
    have hpbm : h'.mem pb = h.mem pb := hfr pb (fun e' => hne e'.symm) (fun _ hpa => by
      have := (hown b0 pb hb0 hpa).2
      rw [hb] at this
      cases this)
    have ham : h'.mem a = h.mem a := hfr a (fun e' => by
        have := block_none_of_buf hd
        rw [e', hb0] at this
        cases this)
      (fun _ hpa => (hown b0 a hb0 hpa).1 rfl)
    exact Intact.intro hch hpb (by rw [block_of_mem_eq hpbm]; exact hb) hu ha
      (by rw [buf_of_mem_eq ham]; exact hd)
  · intro p' data n hne hown h' e
    rcases writeToBlock_cases e with hh | ⟨b', a', d', hb', _, _, ha', hd', _, _, hh⟩
    · subst hh
      exact Intact.intro hreg hpb hb hu ha hd
    · subst hh
      have haa : a ≠ a' := fun e' => hown b' hb' (by rw [ha', e'])
      have hba' : h.block a' = none := block_none_of_buf hd'
      have hch : IsChain (h.store a' (some (Obj.bytes (data.take n ++ d'.drop n))))
          self.pHead l :=
        IsChain.congr (fun x hx => mem_store_ne h _ (hreg.mem_ne_of_fresh hx hba')) hreg
      exact Intact.intro hch hpb
        (by rw [block_of_mem_eq (mem_store_ne h _ (hreg.mem_ne_of_fresh hpb hba'))]; exact hb)
        hu ha (by rw [buf_of_mem_eq (mem_store_ne h _ haa)]; exact hd)
  · intro fuel hfuel
    obtain ⟨h', self', hrun, _, hchain, hout, hsw⟩ :=
      collect_loop_head l h self self.pHead fuel rfl hreg hfuel
    have hlive : live h pb = true := by simp [live, hb, hu]
    obtain ⟨b1, nx, hb1, hb1'⟩ := hsw.kept pb hpb hlive
    rw [hb] at hb1
    cases hb1
    exact ⟨h', self', hrun, Intact.intro hchain (List.mem_filter.mpr ⟨hpb, hlive⟩) hb1' hu ha
      (by rw [buf_of_mem_eq (hout a hal)]; exact hd)⟩

/-- C17 on `liveHeap` for `block2` (address 2, region 20): it is intact after
`block1` is freed, after a write to `block1`, after a sweep, and after a further
successful allocation. -/
theorem live_block_isolated_witness :
    (∃ h', Allocator_FreeBlock liveHeap (some 1) = some h' ∧
      Intact h' ⟨true, some 2⟩ 2 20 ((List.range 2048).map (fun _ => 0))) ∧
    (∃ h', Allocator_WriteToBlock liveHeap 1 helloBytes 18 = some h' ∧
      Intact h' ⟨true, some 2⟩ 2 20 ((List.range 2048).map (fun _ => 0))) ∧
    (∃ h' self', Allocator_Collect 3 liveHeap ⟨true, some 2⟩ = some (h', self') ∧
      Intact h' self' 2 20 ((List.range 2048).map (fun _ => 0))) ∧
    (∃ h' self', Allocator_AllocateBlock
        ⟨some 30, some 3, fun _ => 0, ⟨0, false, false, none, none⟩⟩ liveHeap ⟨true, some 2⟩
        none 64 = some (SUCCESS, h', self', some 3) ∧
      Intact h' self' 2 20 ((List.range 2048).map (fun _ => 0))) := by
  have hb1 : liveHeap.block 1 = some ⟨1024, true, true, some 10, none⟩ := rfl
  have hall := live_block_isolated liveHeap ⟨true, some 2⟩ [2, 1] 2 20
    ⟨2048, true, true, some 20, some 1⟩ ((List.range 2048).map (fun _ => 0))
    ⟨rfl, ⟨2048, true, true, some 20, some 1⟩, rfl, rfl, ⟨1024, true, true, some 10, none⟩,
      rfl, rfl⟩
    (by decide) rfl rfl rfl rfl
  refine ⟨⟨_, freeBlock_live_eq (h := liveHeap) (p := 1) (a := 10) hb1 rfl rfl rfl (by decide),
      ?_⟩, ⟨_, writeToBlock_eq (h := liveHeap) (a := 10) helloBytes 18 hb1 rfl rfl rfl
        (by decide) (by simp only [List.length_map, List.length_range]; decide) (by decide),
      ?_⟩, hall.2.2.2 3 (by decide), ⟨_, _, allocateBlock_success_eq
        ⟨some 30, some 3, fun _ => 0, ⟨0, false, false, none, none⟩⟩ liveHeap ⟨true, some 2⟩
        64 30 3 rfl rfl rfl rfl (by decide), ?_⟩⟩
  · refine hall.2.1 1 (by decide) ?_ _
      (freeBlock_live_eq (h := liveHeap) (p := 1) (a := 10) hb1 rfl rfl rfl (by decide))
    intro b' x hb' hx
    rw [hb1] at hb'
    cases hb'
    cases hx
    exact ⟨by decide, rfl⟩
  · refine hall.2.2.1 1 helloBytes 18 (by decide) ?_ _
      (writeToBlock_eq (h := liveHeap) (a := 10) helloBytes 18 hb1 rfl rfl rfl
        (by decide) (by simp only [List.length_map, List.length_range]; decide) (by decide))
    intro b' hb'
    rw [hb1] at hb'
    cases hb'
    decide
  · exact hall.1 _ none 64 _ _ _ _ (allocateBlock_success_eq
      ⟨some 30, some 3, fun _ => 0, ⟨0, false, false, none, none⟩⟩ liveHeap ⟨true, some 2⟩
      64 30 3 rfl rfl rfl rfl (by decide))

/-- C12: in every state `t` reached from an initialized allocator (empty registry,
nothing tracked) by `Allocator_AllocateBlock`, `Allocator_FreeBlock` on registry
handles and `Allocator_Collect`, the tracked addresses are exactly the registry
records and the buffers of its live records; a further `Allocator_FreeBlock`
on a registry handle and a further `Allocator_Collect` return, that is, they
release only outstanding addresses; and `Allocator_Destroy` returns, the
addresses `L` it releases are exactly the tracked ones, each once, so that no
tracked buffer or record is outstanding afterwards, every registry record is
released whatever its `isUsed`, and nothing untracked is touched. -/
theorem tracked_runs_release_exactly_once (h0 : Heap) (t : Tracked)
    (hr : Reach ⟨h0, ⟨true, none⟩, []⟩ t) :
    ∃ l, TrackedInv t l ∧
      (∀ p ∈ l, ∃ t', t.step (Op.free p) = some t') ∧
      (∀ fuel, l.length < fuel → ∃ t', t.step (Op.collect fuel) = some t') ∧
      (∀ fuel, l.length < fuel →
        ∃ (h' : Heap) (L : List Nat), Allocator_Destroy fuel t.heap t.self = some h' ∧
          h'.log = t.heap.log ++ L.map Event.free ∧ L.Nodup ∧ (∀ x, x ∈ L ↔ x ∈ t.owned) ∧
          (∀ x ∈ t.owned, h'.mem x = none) ∧ (∀ a ∈ l, h'.mem a = none) ∧
          (∀ x, x ∉ t.owned → h'.mem x = t.heap.mem x)) := by
  obtain ⟨l, hinv⟩ := Reach.inv (TrackedInv.init h0) hr
  refine ⟨l, hinv, ?_, ?_, ?_⟩
  · intro p hp
    obtain ⟨t', e, _⟩ := hinv.free hp
    exact ⟨t', e⟩
  · intro fuel hf
    obtain ⟨t', e, _⟩ := hinv.collect hf
    exact ⟨t', e⟩
  · intro fuel hf
    obtain ⟨h', L, hrun, hlog, hnd, hL, hnone, hframe⟩ :=
      destroy_loop_spec l t.heap t.self.pHead fuel hinv.chain hinv.owns hf
    refine ⟨h', L, hrun, hlog, hnd, fun x => ?_, fun x hx => ?_, fun a ha => ?_, fun x hx => ?_⟩
    · rw [hL x, hinv.owned_iff x]
    · exact hnone x ((hinv.owned_iff x).mp hx)
    · exact hnone a (Or.inl ha)
    · exact hframe x (fun hc => hx ((hinv.owned_iff x).mpr hc))

/-- C12 on `Test_Allocator_AllocateBlock`: allocate 1024 bytes (record 1, buffer 10),
`Allocator_FreeBlock(block)`, then `Allocator_Destroy`.  After the free only the
record is tracked; the teardown releases it once and buffer 10, released by
the free, is not released again. -/
theorem tracked_runs_release_exactly_once_witness :
    ∃ t1 t2, Tracked.step ⟨Heap.empty, ⟨true, none⟩, []⟩ (Op.alloc sysP4a none 1024) = some t1 ∧
      t1.step (Op.free 1) = some t2 ∧ t1.owned = [1, 10] ∧ t2.owned = [1] ∧
      ∃ (h' : Heap) (L : List Nat), Allocator_Destroy 2 t2.heap t2.self = some h' ∧
        h'.log = t2.heap.log ++ L.map Event.free ∧ (∀ x, x ∈ L ↔ x ∈ [1]) ∧
        h'.mem 1 = none ∧ h'.mem 10 = none := by
  have hb : wrHeap.block 1 = some ⟨1024, true, true, some 10, none⟩ := rfl
  have ea : Allocator_AllocateBlock sysP4a Heap.empty ⟨true, none⟩ none 1024 =
      some (SUCCESS, wrHeap, ⟨true, some 1⟩, some 1) :=
    allocateBlock_success_eq sysP4a Heap.empty ⟨true, none⟩ 1024 10 1 rfl rfl rfl rfl (by decide)
  have ef : Allocator_FreeBlock wrHeap (some 1) = some wrFreedHeap :=
    freeBlock_live_eq (h := wrHeap) (p := 1) (a := 10) hb rfl rfl rfl (by decide)
  have e1 : Tracked.step ⟨Heap.empty, ⟨true, none⟩, []⟩ (Op.alloc sysP4a none 1024) =
      some ⟨wrHeap, ⟨true, some 1⟩, [1, 10]⟩ := by
    simp only [Tracked.step, ea]
    rfl
  have e2 : Tracked.step ⟨wrHeap, ⟨true, some 1⟩, [1, 10]⟩ (Op.free 1) =
      some ⟨wrFreedHeap, ⟨true, some 1⟩, [1]⟩ := by
    simp only [Tracked.step, ef]
    rfl
  have hreach : Reach ⟨Heap.empty, ⟨true, none⟩, []⟩ ⟨wrFreedHeap, ⟨true, some 1⟩, [1]⟩ :=
    Reach.free 1 [1] (Reach.alloc sysP4a none 1024 Reach.start e1)
      ⟨rfl, ⟨1024, true, true, some 10, none⟩, rfl, rfl⟩ (by decide) e2
  obtain ⟨l, hinv, _, _, hdestroy⟩ :=
    tracked_runs_release_exactly_once Heap.empty ⟨wrFreedHeap, ⟨true, some 1⟩, [1]⟩ hreach
  have hl : l = [1] :=
    IsChain.unique hinv.chain
      (show IsChain wrFreedHeap (some 1) [1] from ⟨rfl, ⟨1024, true, false, none, none⟩, rfl, rfl⟩)
  subst hl
  obtain ⟨h', L, hrun, hlog, _, hL, hnone, _, hframe⟩ := hdestroy 2 (by decide)
  exact ⟨_, _, e1, e2, rfl, rfl, h', L, hrun, hlog, hL, hnone 1 (by decide),
    (hframe 10 (by decide)).trans rfl⟩

end Alloc
